import Mathlib

/-!
# SeqLock (`include/seqlock.hpp`): a shallow embedding

Three views of the same code are given.

* A sequential view: every member function of `SeqLock` and `SeqLock::Writer`
  is a function on a heap of locks (single-threaded semantics, loops carry
  fuel).
* A small-step view: one lock shared by any number of threads, every atomic
  access of `run_in_reader_section`, `get_writer`, the byte loads and stores of
  a handle and the release store of `~Writer` is one step, and a schedule (a
  list of events) chooses the interleaving.  Every load returns the newest
  store: the executions of this view are the sequentially consistent ones.
* A view machine: the same steps with the `std::memory_order` arguments of the
  source; a load may return an older store where the memory orders allow it.

Machine integers: the counter type `SeqCounterT` is an unsigned type of `w`
bits, kept as a natural number below `2 ^ w`; sums are reduced `% 2 ^ w` where
the code stores them in the counter.  Object representations are lists of bytes.
-/

namespace seqlock

/-- One addressable unit of storage (`char`). -/
abbrev Byte := Fin 256

/-- The object representation of a value: its bytes, `sizeof` many. -/
abbrev Bytes := List Byte

/-- A pointer to member `MemberT T::*`: where the member starts inside `T` and
`sizeof(MemberT)`. -/
structure Member where
  offset : Nat
  size : Nat
deriving DecidableEq, Repr

/-- The subobject `v.*member` of a value `v` of type `T`. -/
def Member.of (m : Member) (v : Bytes) : Bytes := (v.drop m.offset).take m.size

/-- The byte positions of a member inside `T`. -/
def Member.positions (m : Member) : List Nat := (List.range m.size).map (fun i => m.offset + i)

/-- Two members occupy disjoint byte ranges. -/
def Member.disjoint (m k : Member) : Prop :=
  m.offset + m.size ≤ k.offset ∨ k.offset + k.size ≤ m.offset

instance (m k : Member) : Decidable (m.disjoint k) := by
  unfold Member.disjoint; infer_instance

namespace internal

/-- The function `read_out_of_order_atomic<T>(ptr)`: `T res; for (i = 0; i < sizeof(T); ++i)
dst[i] = load(src[i]); return res;`.  `mem` is the storage `ptr` points into,
`ptr` the position of the first byte, `size` is `sizeof(T)`. -/
def read_out_of_order_atomic (size : Nat) (mem : Bytes) (ptr : Nat) : Bytes :=
  (List.range size).foldl (fun res i => res.set i (mem.getD (ptr + i) 0))
    (List.replicate size 0)

/-- The function `store_out_of_order_atomic<T>(ptr, val)`: `for (i = 0; i < sizeof(T); ++i)
store(dst[i], src[i]);`, returning the storage after the loop. -/
def store_out_of_order_atomic (size : Nat) (mem : Bytes) (ptr : Nat) (val : Bytes) : Bytes :=
  (List.range size).foldl (fun dst i => dst.set (ptr + i) (val.getD i 0)) mem

end internal

/-- The value `x` stored into a counter of `w` bits. -/
def wrap (w x : Nat) : Nat := x % 2 ^ w

/-- The call `std::atomic<SeqCounterT>::compare_exchange_weak(expected, desired)` on a
counter holding `cur`: the result is (success, counter afterwards, `expected`
afterwards).  A weak exchange may fail although the values are equal
(`spurious`); on failure `expected` receives the value found. -/
def compare_exchange_weak (cur expected desired : Nat) (spurious : Bool) : Bool × Nat × Nat :=
  if cur = expected ∧ spurious = false then (true, desired, expected) else (false, cur, cur)

/-- The data members of `SeqLock<T>`: `val` and `seq`.  `stores` is a ghost
field counting the executions of `seq.store` (the release of a handle). -/
structure SeqLock where
  val : Bytes
  seq : Nat
  stores : Nat
deriving DecidableEq, Repr

/-- The constructor `SeqLock(Args... arg) : val(arg...), seq(0)`. -/
def SeqLock.construct (v : Bytes) : SeqLock := { val := v, seq := 0, stores := 0 }

/-- The locks of a program, by address. -/
abbrev Heap := Nat → SeqLock

/-- The heap with the lock at address `p` replaced. -/
def Heap.set (heap : Heap) (p : Nat) (lk : SeqLock) : Heap :=
  fun q => if q = p then lk else heap q

/-- The data members of `SeqLock::Writer`: `parent` (null or the address of a
lock) and `seq1`. -/
structure Writer where
  parent : Option Nat
  seq1 : Nat
deriving DecidableEq, Repr

/-- What a call of a reader function reports: the value returned, the number
of passes through the body of the `do`-loop and the number of calls of
`ReadConflictPolicy::on_conflict`. -/
structure ReadResult (α : Type) where
  value : α
  passes : Nat
  conflicts : Nat
deriving DecidableEq, Repr

/-- The `do { ... } while ((seq1 & 1) || seq1 != seq2)` loop of
`run_in_reader_section(f)` on the lock `lk`, run by one thread alone.  One unit
of fuel is one pass; `np` and `nc` count the passes and the policy calls made
before. -/
def SeqLock.run_in_reader_section {α : Type} (f : SeqLock → α) (lk : SeqLock) :
    Nat → Nat → Nat → Option (ReadResult α)
  | 0, _, _ => none
  | fuel + 1, np, nc =>
    let seq1 := lk.seq
    if seq1 % 2 = 1 then
      -- on_conflict(); continue;  the loop condition holds by (seq1 & 1)
      SeqLock.run_in_reader_section f lk fuel (np + 1) (nc + 1)
    else
      let r := f lk
      let seq2 := lk.seq
      if seq1 % 2 = 1 ∨ seq1 ≠ seq2 then
        SeqLock.run_in_reader_section f lk fuel (np + 1) nc
      else
        some { value := r, passes := np + 1, conflicts := nc }

/-- The member function `T SeqLock::load()`. -/
def SeqLock.load (heap : Heap) (this : Nat) (fuel : Nat) : Option (ReadResult Bytes) :=
  SeqLock.run_in_reader_section
    (fun lk => internal.read_out_of_order_atomic lk.val.length lk.val 0) (heap this) fuel 0 0

/-- The member function `std::tuple<MemberTs...> SeqLock::load_members(MemberTs(T::*... member_ptrs))`:
the tuple is the list of the member values, in the order of the arguments. -/
def SeqLock.load_members (heap : Heap) (this : Nat) (member_ptrs : List Member) (fuel : Nat) :
    Option (ReadResult (List Bytes)) :=
  SeqLock.run_in_reader_section
    (fun lk => member_ptrs.map
      (fun m => internal.read_out_of_order_atomic m.size lk.val m.offset)) (heap this) fuel 0 0

/-- The `for (;;)` loop of `get_writer` with `seq1` in hand, run by one thread
alone.  One unit of fuel is one iteration of the inner `while` or one
compare-and-swap; `spur` says which of the coming weak exchanges fail
spuriously (none once the list is used up); `nc` counts the calls of
`WriteConflictPolicy::on_conflict`. -/
def SeqLock.get_writer_loop (w : Nat) (heap : Heap) (this : Nat) :
    Nat → List Bool → Nat → Nat → Option (Writer × Heap × Nat)
  | 0, _, _, _ => none
  | fuel + 1, spur, seq1, nc =>
    if seq1 % 2 = 1 then
      -- while (seq1 & 1) { on_conflict(); seq1 = seq.load(); }
      SeqLock.get_writer_loop w heap this fuel spur (heap this).seq (nc + 1)
    else
      match compare_exchange_weak (heap this).seq seq1 (wrap w (seq1 + 1)) (spur.headD false) with
      | (true, cur, _) =>
        some ({ parent := some this, seq1 := seq1 },
              heap.set this { heap this with seq := cur }, nc)
      | (false, _, expected) =>
        SeqLock.get_writer_loop w heap this fuel spur.tail expected (nc + 1)

/-- The member function `Writer SeqLock::get_writer()`: the handle, the heap afterwards and the
number of policy calls. -/
def SeqLock.get_writer (w : Nat) (heap : Heap) (this : Nat) (fuel : Nat) (spur : List Bool) :
    Option (Writer × Heap × Nat) :=
  SeqLock.get_writer_loop w heap this fuel spur (heap this).seq 0

/-- The member function `MemberT Writer::read_member(MemberT(T::*member))`; dereferencing a null
`parent` has no result. -/
def Writer.read_member (h : Writer) (heap : Heap) (member : Member) : Option Bytes :=
  h.parent.map (fun p =>
    internal.read_out_of_order_atomic member.size (heap p).val member.offset)

/-- The member function `void Writer::write_member(MemberT(T::*member), const MemberT& new_val)`. -/
def Writer.write_member (h : Writer) (heap : Heap) (member : Member) (new_val : Bytes) :
    Option Heap :=
  h.parent.map (fun p => heap.set p { heap p with
    val := internal.store_out_of_order_atomic member.size (heap p).val member.offset new_val })

/-- The member function `void Writer::write(const T& new_val)`. -/
def Writer.write (h : Writer) (heap : Heap) (new_val : Bytes) : Option Heap :=
  h.parent.map (fun p => heap.set p { heap p with
    val := internal.store_out_of_order_atomic (heap p).val.length (heap p).val 0 new_val })

/-- The destructor `Writer::~Writer()`: `if (parent) parent->seq.store(seq1 + 2)`. -/
def Writer.dtor (w : Nat) (h : Writer) (heap : Heap) : Heap :=
  match h.parent with
  | some p => heap.set p { heap p with seq := wrap w (h.seq1 + 2), stores := (heap p).stores + 1 }
  | none => heap

/-- The member function `void SeqLock::write(const T& new_val)`: `auto writer = get_writer();
writer.write(new_val);` and the destructor of `writer` at the end of the
scope. -/
def SeqLock.write (w : Nat) (heap : Heap) (this : Nat) (new_val : Bytes) (fuel : Nat)
    (spur : List Bool) : Option Heap :=
  match SeqLock.get_writer w heap this fuel spur with
  | none => none
  | some (writer, heap1, _) =>
    match writer.write heap1 new_val with
    | none => none
    | some heap2 => some (writer.dtor w heap2)

/-- The move constructor `Writer(Writer&& other)`: `parent = nullptr; std::swap(parent, other.parent);
seq1 = other.seq1;`.  The result is (the new handle, `other` afterwards). -/
def Writer.move_ctor (other : Writer) : Writer × Writer :=
  let parent : Option Nat := none
  -- std::swap(parent, other.parent)
  let (parent, other) := (other.parent, { other with parent := parent })
  ({ parent := parent, seq1 := other.seq1 }, other)

/-- The handle objects of a program, by address; `none` where no handle lives. -/
abbrev Handles := Nat → Option Writer

/-- The handle store with the object at address `a` replaced. -/
def Handles.set (hs : Handles) (a : Nat) (h : Option Writer) : Handles :=
  fun b => if b = a then h else hs b

/-- The locks and the handle objects of a program. -/
structure World where
  heap : Heap
  handles : Handles

/-- The statement `auto dst = lock.get_writer();`. -/
def World.get_writer (w : Nat) (wd : World) (lock dst : Nat) (fuel : Nat) (spur : List Bool) :
    Option World :=
  match SeqLock.get_writer w wd.heap lock fuel spur with
  | none => none
  | some (h, heap1, _) => some { heap := heap1, handles := wd.handles.set dst (some h) }

/-- The statement `Writer dst(std::move(src));` for a live handle at `src` and a fresh address
`dst`. -/
def World.move_construct (wd : World) (dst src : Nat) : Option World :=
  match wd.handles src with
  | none => none
  | some other =>
    let (h, other1) := Writer.move_ctor other
    some { wd with handles := (wd.handles.set src (some other1)).set dst (some h) }

/-- The statement `dst = std::move(src);` (`Writer::operator=(Writer&&)`) for live handles at
`dst` and `src`, which may be the same object: `parent = nullptr;
std::swap(parent, other.parent); seq1 = other.seq1;`, statement by statement
on the store. -/
def World.move_assign (wd : World) (dst src : Nat) : Option World :=
  match wd.handles dst, wd.handles src with
  | some this0, some _ =>
    -- parent = nullptr;
    let hs1 := wd.handles.set dst (some { this0 with parent := none })
    match hs1 dst, hs1 src with
    | some this1, some other1 =>
      -- std::swap(parent, other.parent);
      let hs2 := (hs1.set dst (some { this1 with parent := other1.parent }))
      match hs2 src with
      | some other2 =>
        let hs3 := hs2.set src (some { other2 with parent := this1.parent })
        match hs3 dst, hs3 src with
        | some this3, some other3 =>
          -- seq1 = other.seq1;
          some { wd with handles := hs3.set dst (some { this3 with seq1 := other3.seq1 }) }
        | _, _ => none
      | none => none
    | _, _ => none
  | _, _ => none

/-- The end of the lifetime of the handle at `a`: its destructor runs and the
object is gone. -/
def World.destroy (w : Nat) (wd : World) (a : Nat) : Option World :=
  match wd.handles a with
  | none => none
  | some h => some { heap := h.dtor w wd.heap, handles := wd.handles.set a none }

/-! ## The small-step view: one lock shared by threads -/

/-- Where a thread stands in the call it is making.  `np` counts the passes of
the reader loop begun, `nc` the calls of `ReadConflictPolicy::on_conflict`;
`c1` and `span` are ghost values (commits seen when `seq1` was loaded, commits
between the two counter loads of the accepted pass). -/
inductive Thread where
  /-- Outside every call. -/
  | idle
  /-- In `run_in_reader_section`, about to load `seq1`; `ps` are the byte
  positions `f` reads, in order. -/
  | rdSeq1 (ps : List Nat) (np nc : Nat)
  /-- In `f()` with an even `seq1`: `todo` are the positions still to load,
  `buf` the bytes loaded so far; with `todo` empty, about to load `seq2`. -/
  | rdBody (ps : List Nat) (np nc : Nat) (seq1 : Nat) (todo : List Nat) (buf : Bytes) (c1 : Nat)
  /-- The reader loop has left with result `res`. -/
  | rdDone (ps : List Nat) (np nc : Nat) (res : Bytes) (span : Nat)
  /-- In `get_writer`, about to make the first load of `seq`. -/
  | wrLoad
  /-- In `get_writer` at the head of `for (;;)` with `seq1` in hand. -/
  | wrCas (seq1 : Nat)
  /-- Owning the handle `Writer(*this, seq1)`; `todo` are the byte stores left
  of the `write` or `write_member` in progress. -/
  | wrHold (seq1 : Nat) (todo : List (Nat × Byte))
  /-- Owning the handle and inside `read_member`: `todo` are the positions
  still to load, `buf` the bytes loaded so far; with `todo` empty, `buf` is the
  value the call returns. -/
  | wrRead (seq1 : Nat) (todo : List Nat) (buf : Bytes)
deriving DecidableEq, Repr

/-- What a thread does next: begin a call, take the next atomic step of the
call in progress (`tick`; its flag says whether a weak compare-and-swap made
in this step fails spuriously), or leave. -/
inductive Action where
  | load
  | load_members (member_ptrs : List Member)
  | get_writer
  | write (new_val : Bytes)
  | write_member (member : Member) (new_val : Bytes)
  | release
  | ret
  | tick (spurious : Bool)
  | read_member (member : Member)
deriving DecidableEq, Repr

/-- One entry of a schedule: which thread moves and how. -/
structure Event where
  tid : Nat
  act : Action
deriving DecidableEq, Repr

/-- One lock and the threads using it.  `hist` is a ghost list of the values
committed so far, the newest first and the constructed value last; the ghost
field `stores` of the lock counts the commits. -/
structure Sys where
  lock : SeqLock
  threads : Nat → Thread
  hist : List Bytes

/-- The lock just constructed with value `v0`, every thread outside every call. -/
def Sys.init (v0 : Bytes) : Sys :=
  { lock := SeqLock.construct v0, threads := fun _ => Thread.idle, hist := [v0] }

/-- The system with thread `t` moved to `th`. -/
def Sys.setThread (s : Sys) (t : Nat) (th : Thread) : Sys :=
  { s with threads := fun u => if u = t then th else s.threads u }

/-- The byte stores of `store_out_of_order_atomic<T>(ptr, val)`, in order. -/
def storeList (size ptr : Nat) (val : Bytes) : List (Nat × Byte) :=
  (List.range size).map (fun i => (ptr + i, val.getD i 0))

/-- One atomic step of thread `e.tid`; an event that does not apply to the
state of the thread changes nothing.  A load returns the newest store to the
object it reads, whatever its memory order (the orders are the subject of
`vstep`). -/
def step (w : Nat) (s : Sys) (e : Event) : Sys :=
  match s.threads e.tid, e.act with
  | Thread.idle, Action.load =>
    s.setThread e.tid (Thread.rdSeq1 (List.range s.lock.val.length) 0 0)
  | Thread.idle, Action.load_members ms =>
    s.setThread e.tid (Thread.rdSeq1 (ms.flatMap Member.positions) 0 0)
  | Thread.idle, Action.get_writer => s.setThread e.tid Thread.wrLoad
  | Thread.rdSeq1 ps np nc, Action.tick _ =>
    -- seq1 = seq.load(acquire); if (seq1 & 1) { on_conflict(); continue; }
    let seq1 := s.lock.seq
    if seq1 % 2 = 1 then s.setThread e.tid (Thread.rdSeq1 ps (np + 1) (nc + 1))
    else s.setThread e.tid (Thread.rdBody ps (np + 1) nc seq1 ps [] s.lock.stores)
  | Thread.rdBody ps np nc seq1 (p :: todo) buf c1, Action.tick _ =>
    -- dst[i] = load(src[i])
    s.setThread e.tid (Thread.rdBody ps np nc seq1 todo (buf ++ [s.lock.val.getD p 0]) c1)
  | Thread.rdBody ps np nc seq1 [] buf c1, Action.tick _ =>
    -- seq2 = seq.load(relaxed); while ((seq1 & 1) || seq1 != seq2)
    let seq2 := s.lock.seq
    if seq1 % 2 = 1 ∨ seq1 ≠ seq2 then s.setThread e.tid (Thread.rdSeq1 ps np nc)
    else s.setThread e.tid (Thread.rdDone ps np nc buf (s.lock.stores - c1))
  | Thread.rdDone _ _ _ _ _, Action.ret => s.setThread e.tid Thread.idle
  | Thread.wrLoad, Action.tick _ =>
    -- SeqCounterT seq1 = seq.load(relaxed);
    s.setThread e.tid (Thread.wrCas s.lock.seq)
  | Thread.wrCas seq1, Action.tick spurious =>
    if seq1 % 2 = 1 then
      -- on_conflict(); seq1 = seq.load(relaxed);
      s.setThread e.tid (Thread.wrCas s.lock.seq)
    else
      match compare_exchange_weak s.lock.seq seq1 (wrap w (seq1 + 1)) spurious with
      | (true, cur, _) =>
        Sys.setThread { s with lock := { s.lock with seq := cur } } e.tid (Thread.wrHold seq1 [])
      | (false, _, expected) => s.setThread e.tid (Thread.wrCas expected)
  | Thread.wrHold seq1 [], Action.write new_val =>
    s.setThread e.tid (Thread.wrHold seq1 (storeList s.lock.val.length 0 new_val))
  | Thread.wrHold seq1 [], Action.write_member m new_val =>
    s.setThread e.tid (Thread.wrHold seq1 (storeList m.size m.offset new_val))
  | Thread.wrHold seq1 ((p, b) :: todo), Action.tick _ =>
    -- store(dst[i], src[i])
    Sys.setThread { s with lock := { s.lock with val := s.lock.val.set p b } } e.tid
      (Thread.wrHold seq1 todo)
  | Thread.wrHold seq1 [], Action.release =>
    -- parent->seq.store(seq1 + 2, release)
    Sys.setThread
      { s with
        lock := { s.lock with seq := wrap w (seq1 + 2), stores := s.lock.stores + 1 }
        hist := s.lock.val :: s.hist } e.tid Thread.idle
  | Thread.wrHold seq1 [], Action.read_member m =>
    s.setThread e.tid (Thread.wrRead seq1 m.positions [])
  | Thread.wrRead seq1 (p :: todo) buf, Action.tick _ =>
    -- dst[i] = load(src[i])
    s.setThread e.tid (Thread.wrRead seq1 todo (buf ++ [s.lock.val.getD p 0]))
  | Thread.wrRead seq1 [] _, Action.ret => s.setThread e.tid (Thread.wrHold seq1 [])
  | _, _ => s

/-- The state after a schedule. -/
def run (w : Nat) (s : Sys) (es : List Event) : Sys := es.foldl (step w) s

/-- The thread owns a handle. -/
def Thread.isHold : Thread → Bool
  | Thread.wrHold _ _ => true
  | Thread.wrRead _ _ _ => true
  | _ => false

/-- The thread is inside `get_writer` or owns a handle. -/
def Thread.isWriter : Thread → Bool
  | Thread.wrLoad => true
  | Thread.wrCas _ => true
  | Thread.wrHold _ _ => true
  | Thread.wrRead _ _ _ => true
  | _ => false

/-- The facade `write(new_val)` made by thread `t` without interruption:
`get_writer` (load, compare-and-swap), `Writer::write` (one store per byte of
a value of `size` bytes), destructor. -/
def writeEvents (t size : Nat) (new_val : Bytes) : List Event :=
  [⟨t, Action.get_writer⟩, ⟨t, Action.tick false⟩, ⟨t, Action.tick false⟩,
   ⟨t, Action.write new_val⟩] ++ List.replicate size ⟨t, Action.tick false⟩ ++
  [⟨t, Action.release⟩]

/-- What holds of a thread in every reachable state, against the lock and the
committed values. -/
def ThOk (w : Nat) (lk : SeqLock) (hist : List Bytes) : Thread → Prop
  | Thread.wrHold seq1 _ => lk.seq = wrap w (seq1 + 1) ∧ seq1 % 2 = 0
  | Thread.wrRead seq1 _ _ => lk.seq = wrap w (seq1 + 1) ∧ seq1 % 2 = 0
  | Thread.rdBody ps _ _ seq1 todo buf c1 =>
    seq1 % 2 = 0 ∧ seq1 = wrap w (2 * c1) ∧ c1 ≤ lk.stores ∧
    ∃ v ∈ hist, (lk.stores = c1 → lk.seq % 2 = 0 →
      lk.val = v ∧ buf ++ todo.map (fun p => v.getD p 0) = ps.map (fun p => v.getD p 0))
  | Thread.rdDone ps _ _ res span =>
    span < 2 ^ (w - 1) → ∃ v ∈ hist, res = ps.map (fun p => v.getD p 0)
  | _ => True

/-- The invariant of the shared lock: the counter is the number of commits
doubled plus the write-in-progress bit, at most one thread owns a handle, an
odd counter has an owner, an even counter leaves the last committed value in
place, and every thread satisfies `ThOk`. -/
structure Inv (w : Nat) (s : Sys) : Prop where
  seq_eq : s.lock.seq = wrap w (2 * s.lock.stores + s.lock.seq % 2)
  uniq : ∀ t u, (s.threads t).isHold = true → (s.threads u).isHold = true → t = u
  odd_hold : s.lock.seq % 2 = 1 → ∃ t, (s.threads t).isHold = true
  even_val : s.lock.seq % 2 = 0 → s.hist.head? = some s.lock.val
  len : ∀ v ∈ s.hist, v.length = s.lock.val.length
  ok : ∀ t, ThOk w s.lock s.hist (s.threads t)

/-- A schedule for a lock with an 8-bit counter and a two-byte value: thread 1
begins `load()`, loads `seq1` and the first byte; thread 0 then makes 128
complete `write({1, 1})` calls; thread 1 loads the second byte and `seq2`. -/
def tornSchedule : List Event :=
  [⟨1, Action.load⟩, ⟨1, Action.tick false⟩, ⟨1, Action.tick false⟩] ++
  (List.replicate 128 (writeEvents 0 2 [1, 1])).flatten ++
  [⟨1, Action.tick false⟩, ⟨1, Action.tick false⟩]

/-- Two locks `a` (address 0) and `b` (address 1) of the same type, both just
constructed: `auto ha = a.get_writer(); auto hb = b.get_writer();
ha = std::move(hb);` and the end of the scope, which destroys `hb`, then `ha`.
The handle `ha` lives at address 0 and `hb` at address 1. -/
def moveAssignScenario (w : Nat) (v0 : Bytes) : Option World := do
  let wd0 : World := { heap := fun _ => SeqLock.construct v0, handles := fun _ => none }
  let wd1 ← wd0.get_writer w 0 0 1 []
  let wd2 ← wd1.get_writer w 1 1 1 []
  let wd3 ← wd2.move_assign 0 1
  let wd4 ← wd3.destroy w 1
  wd4.destroy w 0

/-- One lock `a` (address 0) just constructed: `auto ha = a.get_writer();
ha = std::move(ha);` and the end of the scope, which destroys `ha`. -/
def selfMoveAssignScenario (w : Nat) (v0 : Bytes) : Option World := do
  let wd0 : World := { heap := fun _ => SeqLock.construct v0, handles := fun _ => none }
  let wd1 ← wd0.get_writer w 0 0 1 []
  let wd2 ← wd1.move_assign 0 0
  wd2.destroy w 0

/-- No writer takes a step in the schedule `es` from state `s`: no event
belongs to a thread that is inside `get_writer` or owns a handle, and no event
begins `get_writer`. -/
def writerFree (w : Nat) : Sys → List Event → Bool
  | _, [] => true
  | s, e :: es =>
    !(s.threads e.tid).isWriter && decide (e.act ≠ Action.get_writer) &&
      writerFree w (step w s e) es

/-- The call `load()` made by thread `t` without interruption on a value of
`size` bytes: the load of `seq1`, one load per byte, the load of `seq2`. -/
def loadEvents (t size : Nat) : List Event :=
  [⟨t, Action.load⟩, ⟨t, Action.tick false⟩] ++ List.replicate size ⟨t, Action.tick false⟩ ++
  [⟨t, Action.tick false⟩]

/-- The commit base `seq1` a thread carries while it is inside the loop of
`get_writer` or owns a handle. -/
def Thread.base : Thread → Option Nat
  | Thread.wrCas seq1 => some seq1
  | Thread.wrHold seq1 _ => some seq1
  | Thread.wrRead seq1 _ _ => some seq1
  | _ => none

/-- The counter and every commit base fit the counter type of `w` bits. -/
def Bounded (w : Nat) (s : Sys) : Prop :=
  s.lock.seq < 2 ^ w ∧ ∀ t q, (s.threads t).base = some q → q < 2 ^ w

/-- The `std::memory_order` arguments used by the source. -/
inductive MemoryOrder where
  | relaxed
  | acquire
  | release
deriving DecidableEq, Repr

/-- An atomic object of one lock: the counter `seq`, or byte `i` of `val`
(accessed through `std::atomic_ref<char>` or `__atomic_load_n` /
`__atomic_store_n`). -/
inductive Loc where
  | seq
  | byte (i : Nat)
deriving DecidableEq, Repr

/-- For every atomic object a position in its modification order: the newest
store of the object that is known. -/
abbrev View := Loc → Nat

/-- Knowing both. -/
def View.join (a b : View) : View := fun x => max (a x) (b x)

/-- Knowing, in addition, the store at position `ts` of object `x`. -/
def View.bump (a : View) (x : Loc) (ts : Nat) : View :=
  fun y => if y = x then max (a y) ts else a y

/-- One store in the modification order of an atomic object: the value stored
and what the store publishes. -/
structure Msg (α : Type) where
  value : α
  view : View

/-- What a thread is bound to see: `cur` binds its next loads; `acq` holds in
addition what its relaxed loads have read and the next acquire fence will
bind. -/
structure TView where
  cur : View
  acq : View

/-- The load `x.load(order)` reading the store at position `ts` of the
modification order `hist` of `x`: the value read and the thread's views
afterwards, or `none` when the thread may not read that store (there is no
such store, or the thread knows of a newer one). -/
def atomic_load {α : Type} (order : MemoryOrder) (x : Loc) (hist : List (Msg α)) (ts : Nat)
    (tv : TView) : Option (α × TView) :=
  match hist[ts]? with
  | none => none
  | some m =>
    if tv.cur x ≤ ts then
      some (m.value,
        { cur := if order = MemoryOrder.acquire then tv.cur.join (m.view.bump x ts)
                 else tv.cur.bump x ts
          acq := tv.acq.join (m.view.bump x ts) })
    else none

/-- The store `x.store(v, order)`: the modification order of `x` and the
thread's views afterwards. -/
def atomic_store {α : Type} (order : MemoryOrder) (x : Loc) (hist : List (Msg α)) (v : α)
    (tv : TView) : List (Msg α) × TView :=
  (hist ++ [{ value := v
              view := if order = MemoryOrder.release then tv.cur.bump x hist.length
                      else View.bump (fun _ => 0) x hist.length }],
   { cur := tv.cur.bump x hist.length, acq := tv.acq.bump x hist.length })

/-- The fence `std::atomic_thread_fence(std::memory_order_acquire)`. -/
def atomic_thread_fence_acquire (tv : TView) : TView := { cur := tv.acq, acq := tv.acq }

/-- The call `seq.compare_exchange_weak(expected, desired,
std::memory_order_release, std::memory_order_relaxed)` reading the store at
position `ts`: (success, modification order afterwards, `expected` afterwards,
views afterwards).  The load is relaxed; whether the exchange succeeds is
decided by `compare_exchange_weak` on the value read; on success the value read
must be the last store of the modification order, and the new store publishes
what the thread knows and what the store it read published. -/
def atomic_compare_exchange_weak (hist : List (Msg Nat)) (ts : Nat) (expected desired : Nat)
    (spurious : Bool) (tv : TView) : Option (Bool × List (Msg Nat) × Nat × TView) :=
  match hist[ts]? with
  | none => none
  | some m =>
    match atomic_load MemoryOrder.relaxed Loc.seq hist ts tv with
    | none => none
    | some (cur, tv1) =>
      match compare_exchange_weak cur expected desired spurious with
      | (true, stored, exp) =>
        if ts + 1 = hist.length then
          some (true,
            hist ++ [{ value := stored
                       view := (tv1.cur.bump Loc.seq hist.length).join m.view }],
            exp,
            { cur := tv1.cur.bump Loc.seq hist.length, acq := tv1.acq.bump Loc.seq hist.length })
        else none
      | (false, _, exp) => some (false, hist, exp, tv1)

/-- One lock and the threads using it, with the memory orders: the
modification order of `seq`, one modification order per byte of `val`, where
every thread stands and what it is bound to see.  `stores` is the ghost count
of the release stores of `~Writer`. -/
structure VSys where
  seq : List (Msg Nat)
  val : List (List (Msg Byte))
  stores : Nat
  threads : Nat → Thread
  views : Nat → TView

/-- The lock just constructed with value `v0`; the construction happens before
every access. -/
def VSys.init (v0 : Bytes) : VSys :=
  { seq := [{ value := 0, view := fun _ => 0 }]
    val := v0.map (fun b => [{ value := b, view := fun _ => 0 }])
    stores := 0
    threads := fun _ => Thread.idle
    views := fun _ => { cur := fun _ => 0, acq := fun _ => 0 } }

/-- The system with thread `t` moved to `th`, bound to see `tv`. -/
def VSys.set (s : VSys) (t : Nat) (th : Thread) (tv : TView) : VSys :=
  { s with
    threads := fun u => if u = t then th else s.threads u
    views := fun u => if u = t then tv else s.views u }

/-- One entry of a schedule of the view machine: which thread moves, how, and,
when the step is a load, the position in the modification order of the store
it reads. -/
structure VEvent where
  tid : Nat
  act : Action
  pick : Nat
deriving DecidableEq, Repr

/-- One atomic step of thread `e.tid` with the memory orders of the source; an
event that does not apply to the state of the thread, or a load of a store the
thread may not read, changes nothing.  The acquire fence of the reader loop is
taken in the step of the load of `seq2` that follows it (the fence touches
the views of its own thread only). -/
def vstep (w : Nat) (s : VSys) (e : VEvent) : VSys :=
  match s.threads e.tid, e.act with
  | Thread.idle, Action.load =>
    s.set e.tid (Thread.rdSeq1 (List.range s.val.length) 0 0) (s.views e.tid)
  | Thread.idle, Action.load_members ms =>
    s.set e.tid (Thread.rdSeq1 (ms.flatMap Member.positions) 0 0) (s.views e.tid)
  | Thread.idle, Action.get_writer => s.set e.tid Thread.wrLoad (s.views e.tid)
  | Thread.rdSeq1 ps np nc, Action.tick _ =>
    -- seq1 = seq.load(std::memory_order_acquire); if (seq1 & 1) { on_conflict(); continue; }
    match atomic_load MemoryOrder.acquire Loc.seq s.seq e.pick (s.views e.tid) with
    | none => s
    | some (seq1, tv) =>
      if seq1 % 2 = 1 then s.set e.tid (Thread.rdSeq1 ps (np + 1) (nc + 1)) tv
      else s.set e.tid (Thread.rdBody ps (np + 1) nc seq1 ps [] s.stores) tv
  | Thread.rdBody ps np nc seq1 (p :: todo) buf c1, Action.tick _ =>
    -- dst[i] = __atomic_load_n(&src[i], __ATOMIC_RELAXED)
    match atomic_load MemoryOrder.relaxed (Loc.byte p) (s.val.getD p []) e.pick
        (s.views e.tid) with
    | none => s
    | some (b, tv) => s.set e.tid (Thread.rdBody ps np nc seq1 todo (buf ++ [b]) c1) tv
  | Thread.rdBody ps np nc seq1 [] buf c1, Action.tick _ =>
    -- std::atomic_thread_fence(std::memory_order_acquire);
    -- seq2 = seq.load(std::memory_order_relaxed); while ((seq1 & 1) || seq1 != seq2)
    match atomic_load MemoryOrder.relaxed Loc.seq s.seq e.pick
        (atomic_thread_fence_acquire (s.views e.tid)) with
    | none => s
    | some (seq2, tv) =>
      if seq1 % 2 = 1 ∨ seq1 ≠ seq2 then s.set e.tid (Thread.rdSeq1 ps np nc) tv
      else s.set e.tid (Thread.rdDone ps np nc buf (s.stores - c1)) tv
  | Thread.rdDone _ _ _ _ _, Action.ret => s.set e.tid Thread.idle (s.views e.tid)
  | Thread.wrLoad, Action.tick _ =>
    -- SeqCounterT seq1 = seq.load(std::memory_order_relaxed);
    match atomic_load MemoryOrder.relaxed Loc.seq s.seq e.pick (s.views e.tid) with
    | none => s
    | some (seq1, tv) => s.set e.tid (Thread.wrCas seq1) tv
  | Thread.wrCas seq1, Action.tick spurious =>
    if seq1 % 2 = 1 then
      -- on_conflict(); seq1 = seq.load(std::memory_order_relaxed);
      match atomic_load MemoryOrder.relaxed Loc.seq s.seq e.pick (s.views e.tid) with
      | none => s
      | some (found, tv) => s.set e.tid (Thread.wrCas found) tv
    else
      -- seq.compare_exchange_weak(seq1, seq1 + 1, std::memory_order_release,
      --                           std::memory_order_relaxed)
      match atomic_compare_exchange_weak s.seq e.pick seq1 (wrap w (seq1 + 1)) spurious
          (s.views e.tid) with
      | none => s
      | some (true, hist, _, tv) =>
        VSys.set { s with seq := hist } e.tid (Thread.wrHold seq1 []) tv
      | some (false, _, expected, tv) => s.set e.tid (Thread.wrCas expected) tv
  | Thread.wrHold seq1 [], Action.write new_val =>
    s.set e.tid (Thread.wrHold seq1 (storeList s.val.length 0 new_val)) (s.views e.tid)
  | Thread.wrHold seq1 [], Action.write_member m new_val =>
    s.set e.tid (Thread.wrHold seq1 (storeList m.size m.offset new_val)) (s.views e.tid)
  | Thread.wrHold seq1 ((p, b) :: todo), Action.tick _ =>
    -- __atomic_store_n(&dst[i], src[i], __ATOMIC_RELAXED)
    VSys.set
      { s with
        val := s.val.set p
          (atomic_store MemoryOrder.relaxed (Loc.byte p) (s.val.getD p []) b (s.views e.tid)).1 }
      e.tid (Thread.wrHold seq1 todo)
      (atomic_store MemoryOrder.relaxed (Loc.byte p) (s.val.getD p []) b (s.views e.tid)).2
  | Thread.wrHold seq1 [], Action.release =>
    -- parent->seq.store(seq1 + 2, std::memory_order_release)
    VSys.set
      { s with
        seq := (atomic_store MemoryOrder.release Loc.seq s.seq (wrap w (seq1 + 2))
          (s.views e.tid)).1
        stores := s.stores + 1 }
      e.tid Thread.idle
      (atomic_store MemoryOrder.release Loc.seq s.seq (wrap w (seq1 + 2)) (s.views e.tid)).2
  | Thread.wrHold seq1 [], Action.read_member m =>
    s.set e.tid (Thread.wrRead seq1 m.positions []) (s.views e.tid)
  | Thread.wrRead seq1 (p :: todo) buf, Action.tick _ =>
    -- dst[i] = __atomic_load_n(&src[i], __ATOMIC_RELAXED)
    match atomic_load MemoryOrder.relaxed (Loc.byte p) (s.val.getD p []) e.pick
        (s.views e.tid) with
    | none => s
    | some (b, tv) => s.set e.tid (Thread.wrRead seq1 todo (buf ++ [b])) tv
  | Thread.wrRead seq1 [] _, Action.ret =>
    s.set e.tid (Thread.wrHold seq1 []) (s.views e.tid)
  | _, _ => s

/-- The state of the view machine after a schedule. -/
def vrun (w : Nat) (s : VSys) (es : List VEvent) : VSys := es.foldl (vstep w) s

/-- A schedule of the view machine for a lock with a two-byte value
constructed as `{0, 0}`.  Thread 1 calls `load()` and loads `seq1 = 0`.
Thread 0 calls `write({1, 1})`: it loads the counter, its compare-and-swap
stores 1, it stores byte 0.  Thread 1 loads byte 0 (the new store), byte 1
(the store of the construction, the only one) and, after its fence, `seq2`
from the store of the construction. -/
def tornViewSchedule : List VEvent :=
  [⟨1, Action.load, 0⟩, ⟨1, Action.tick false, 0⟩,
   ⟨0, Action.get_writer, 0⟩, ⟨0, Action.tick false, 0⟩, ⟨0, Action.tick false, 0⟩,
   ⟨0, Action.write [1, 1], 0⟩, ⟨0, Action.tick false, 0⟩,
   ⟨1, Action.tick false, 1⟩, ⟨1, Action.tick false, 0⟩, ⟨1, Action.tick false, 0⟩]

/-- The rest of the `write({1, 1})` call of thread 0 after `tornViewSchedule`
(the store of byte 1 and the release store of the destructor), then a
`load()` of thread 2 that reads the release store at its load of `seq1`. -/
def commitThenLoad : List VEvent :=
  [⟨0, Action.tick false, 0⟩, ⟨0, Action.release, 0⟩,
   ⟨2, Action.load, 0⟩, ⟨2, Action.tick false, 2⟩]

/-- The entry of a schedule of the sequentially consistent machine that makes
the same move. -/
def VEvent.toEvent (e : VEvent) : Event := ⟨e.tid, e.act⟩

/-- The value of the newest store of a modification order (`d` when there is
no store). -/
def newestValue {α : Type} (d : α) (hist : List (Msg α)) : α :=
  match hist.getLast? with
  | some m => m.value
  | none => d

/-- The lock as a thread finds it whose loads all read the newest store. -/
def VSys.lock (s : VSys) : SeqLock :=
  { val := s.val.map (newestValue 0), seq := newestValue 0 s.seq, stores := s.stores }

/-- Position `ts` is the newest store of `hist`, and a thread bound to see
`cur` of that object may read it. -/
def readableNewest {α : Type} (hist : List (Msg α)) (ts cur : Nat) : Bool :=
  decide (ts + 1 = hist.length) && decide (cur ≤ ts)

/-- The step of `e` loads nothing, or it loads the newest store of the object
it reads. -/
def VEvent.readsNewest (s : VSys) (e : VEvent) : Bool :=
  match s.threads e.tid, e.act with
  | Thread.rdSeq1 _ _ _, Action.tick _ =>
    readableNewest s.seq e.pick ((s.views e.tid).cur Loc.seq)
  | Thread.rdBody _ _ _ _ (p :: _) _ _, Action.tick _ =>
    readableNewest (s.val.getD p []) e.pick ((s.views e.tid).cur (Loc.byte p))
  | Thread.rdBody _ _ _ _ [] _ _, Action.tick _ =>
    readableNewest s.seq e.pick ((s.views e.tid).acq Loc.seq)
  | Thread.wrLoad, Action.tick _ =>
    readableNewest s.seq e.pick ((s.views e.tid).cur Loc.seq)
  | Thread.wrCas _, Action.tick _ =>
    readableNewest s.seq e.pick ((s.views e.tid).cur Loc.seq)
  | Thread.wrRead _ (p :: _) _, Action.tick _ =>
    readableNewest (s.val.getD p []) e.pick ((s.views e.tid).cur (Loc.byte p))
  | _, _ => true

/-- Every load of the schedule `es` from state `s` reads the newest store. -/
def allNewest (w : Nat) : VSys → List VEvent → Bool
  | _, [] => true
  | s, e :: es => e.readsNewest s && allNewest w (vstep w s e) es

/-- The number of stores in the modification order of an atomic object. -/
def VSys.len (s : VSys) : Loc → Nat
  | Loc.seq => s.seq.length
  | Loc.byte p => (s.val.getD p []).length

/-- The view names only stores that are in the modification orders. -/
def VSys.Knows (s : VSys) (v : View) : Prop := ∀ x, v x ≤ s.len x - 1

/-- What holds of the view machine in every reachable state: the counter and
every byte of `val` have a store, and the views of the threads and of the
stores name only stores that exist. -/
structure VInv (s : VSys) : Prop where
  seq_ne : s.seq ≠ []
  val_ne : ∀ h ∈ s.val, h ≠ []
  cur : ∀ t, s.Knows (s.views t).cur
  acq : ∀ t, s.Knows (s.views t).acq
  seq_msg : ∀ m ∈ s.seq, s.Knows m.view
  val_msg : ∀ h ∈ s.val, ∀ m ∈ h, s.Knows m.view

/-! ## Theorems -/

/-! ### Counter arithmetic -/

theorem two_dvd_two_pow {w : Nat} (hw : 0 < w) : 2 ∣ 2 ^ w :=
  dvd_pow_self 2 (Nat.pos_iff_ne_zero.mp hw)

theorem wrap_mod_two {w : Nat} (hw : 0 < w) (x : Nat) : wrap w x % 2 = x % 2 :=
  Nat.mod_mod_of_dvd x (two_dvd_two_pow hw)

theorem wrap_lt (w x : Nat) : wrap w x < 2 ^ w :=
  Nat.mod_lt _ (by positivity)

theorem wrap_succ_of_wrap (w a b : Nat) (k : Nat) (h : wrap w a = wrap w b) :
    wrap w (a + k) = wrap w (b + k) := by
  unfold wrap at *
  exact Nat.ModEq.add_right k h

theorem eq_of_wrap_eq_of_close (w a b : Nat) (hab : a ≤ b) (hlt : b - a < 2 ^ w)
    (h : wrap w a = wrap w b) : a = b := by
  unfold wrap at h
  have hd : 2 ^ w ∣ b - a := (Nat.modEq_iff_dvd' hab).mp h
  have := Nat.eq_zero_of_dvd_of_lt hd hlt
  omega

theorem compare_exchange_weak_true {cur e d c x : Nat} {sp : Bool}
    (h : compare_exchange_weak cur e d sp = (true, c, x)) : cur = e ∧ sp = false ∧ c = d := by
  unfold compare_exchange_weak at h
  split at h
  · rename_i hc
    simp only [Prod.mk.injEq, true_and] at h
    exact ⟨hc.1, hc.2, h.1.symm⟩
  · simp at h

theorem compare_exchange_weak_false {cur e d c x : Nat} {sp : Bool}
    (h : compare_exchange_weak cur e d sp = (false, c, x)) : x = cur := by
  unfold compare_exchange_weak at h
  split at h
  · simp at h
  · simp only [Prod.mk.injEq, true_and] at h
    exact h.2.symm

/-! ### The invariant of the small-step view -/

theorem inv_init (w : Nat) (v0 : Bytes) : Inv w (Sys.init v0) where
  seq_eq := by simp [Sys.init, SeqLock.construct, wrap]
  uniq := by intro t u h; simp [Sys.init, Thread.isHold] at h
  odd_hold := by simp [Sys.init, SeqLock.construct]
  even_val := by simp [Sys.init, SeqLock.construct]
  len := by simp [Sys.init, SeqLock.construct]
  ok := by intro t; simp [Sys.init, ThOk]

/-- A step that moves one thread only, keeps whether it owns a handle and
leaves it in a state that is fine against the unchanged lock. -/
theorem inv_setThread {w : Nat} {s : Sys} (h : Inv w s) (t : Nat) (th : Thread)
    (hhold : th.isHold = (s.threads t).isHold) (hok : ThOk w s.lock s.hist th) :
    Inv w (s.setThread t th) := by
  have key : ∀ u, ((s.setThread t th).threads u).isHold = (s.threads u).isHold := by
    intro u
    by_cases hu : u = t
    · subst hu; simp [Sys.setThread, hhold]
    · simp [Sys.setThread, hu]
  refine ⟨h.seq_eq, ?_, ?_, h.even_val, h.len, ?_⟩
  · intro a b ha hb
    rw [key] at ha hb
    exact h.uniq a b ha hb
  · intro hodd
    obtain ⟨u, hu⟩ := h.odd_hold hodd
    exact ⟨u, by rw [key]; exact hu⟩
  · intro u
    by_cases hu : u = t
    · subst hu; simpa [Sys.setThread] using hok
    · simpa [Sys.setThread, hu] using h.ok u

/-- A thread that owns a handle sees an odd counter. -/
theorem odd_of_hold {w : Nat} (hw : 0 < w) {s : Sys} (h : Inv w s) {t : Nat}
    (ht : (s.threads t).isHold = true) : s.lock.seq % 2 = 1 := by
  have := h.ok t
  cases hth : s.threads t <;> rw [hth] at ht this <;> simp [Thread.isHold] at ht
  all_goals
    obtain ⟨h1, h2⟩ := this
    have h3 := congrArg (fun x => x % 2) h1
    simp only [wrap_mod_two hw] at h3
    omega

/-- Against a lock with an odd counter and the same commits, a thread that does
not own a handle stays fine. -/
theorem thOk_of_odd {w : Nat} {lk lk2 : SeqLock} {hist : List Bytes} {th : Thread}
    (hok : ThOk w lk hist th) (hnot : th.isHold = false) (hst : lk2.stores = lk.stores)
    (hodd : lk2.seq % 2 = 1) : ThOk w lk2 hist th := by
  cases th <;> simp only [ThOk] at hok ⊢ <;> try trivial
  · obtain ⟨h1, h2, h3, v, hv, _⟩ := hok
    refine ⟨h1, h2, by omega, v, hv, ?_⟩
    intro _ h0
    omega

theorem wrap_wrap (w x : Nat) : wrap w (wrap w x) = wrap w x := by
  unfold wrap; exact Nat.mod_mod _ _

/-- The compare-and-swap of `get_writer` succeeds: the counter goes from the
even `seq1` to `seq1 + 1` and the thread owns the handle. -/
theorem inv_cas {w : Nat} (hw : 0 < w) {s : Sys} (h : Inv w s) (t seq1 : Nat)
    (hev : seq1 % 2 = 0) (hcur : s.lock.seq = seq1) :
    Inv w (Sys.setThread { s with lock := { s.lock with seq := wrap w (seq1 + 1) } } t
      (Thread.wrHold seq1 [])) := by
  have hodd : wrap w (seq1 + 1) % 2 = 1 := by rw [wrap_mod_two hw]; omega
  have hnone : ∀ u, (s.threads u).isHold = false := by
    intro u
    by_contra hc
    have := odd_of_hold hw h (t := u) (by simpa using hc)
    omega
  refine ⟨?_, ?_, ?_, ?_, h.len, ?_⟩
  · show wrap w (seq1 + 1) = wrap w (2 * s.lock.stores + wrap w (seq1 + 1) % 2)
    rw [hodd]
    have := h.seq_eq
    rw [hcur, hev, Nat.add_zero] at this
    have h2 : wrap w seq1 = wrap w (2 * s.lock.stores) := by
      rw [this, wrap_wrap]
    exact wrap_succ_of_wrap w _ _ 1 h2
  · intro a b ha hb
    simp only [Sys.setThread] at ha hb
    by_cases h1 : a = t <;> by_cases h2 : b = t <;> simp [h1, h2, hnone] at ha hb ⊢
  · intro _
    exact ⟨t, by simp [Sys.setThread, Thread.isHold]⟩
  · intro h0
    simp only [Sys.setThread] at h0
    omega
  · intro u
    by_cases hu : u = t
    · subst hu
      simp [Sys.setThread, ThOk, hev]
    · simp only [Sys.setThread, hu, if_false]
      exact thOk_of_odd (h.ok u) (hnone u) rfl hodd

/-- One byte store of the thread that owns the handle. -/
theorem inv_store {w : Nat} (hw : 0 < w) {s : Sys} (h : Inv w s) (t seq1 : Nat)
    (p : Nat) (b : Byte) (todo todo2 : List (Nat × Byte))
    (ht : s.threads t = Thread.wrHold seq1 todo) :
    Inv w (Sys.setThread { s with lock := { s.lock with val := s.lock.val.set p b } } t
      (Thread.wrHold seq1 todo2)) := by
  have hodd : s.lock.seq % 2 = 1 := odd_of_hold hw h (t := t) (by rw [ht]; rfl)
  have hself := h.ok t
  rw [ht] at hself
  have key : ∀ u, (if u = t then Thread.wrHold seq1 todo2 else s.threads u).isHold
      = (s.threads u).isHold := by
    intro u
    by_cases hu : u = t
    · subst hu; simp [ht, Thread.isHold]
    · simp [hu]
  refine ⟨h.seq_eq, ?_, ?_, ?_, ?_, ?_⟩
  · intro a b ha hb
    simp only [Sys.setThread] at ha hb
    rw [key] at ha hb
    exact h.uniq a b ha hb
  · intro _
    exact ⟨t, by simp [Sys.setThread, Thread.isHold]⟩
  · intro h0
    simp only [Sys.setThread] at h0
    omega
  · intro v hv
    simp only [Sys.setThread, List.length_set]
    exact h.len v hv
  · intro u
    by_cases hu : u = t
    · subst hu
      simpa [Sys.setThread, ThOk] using hself
    · simp only [Sys.setThread, hu, if_false]
      have hnot : (s.threads u).isHold = false := by
        by_contra hc
        exact hu (h.uniq u t (by simpa using hc) (by rw [ht]; rfl))
      exact thOk_of_odd (h.ok u) hnot rfl hodd

/-- The release store of `~Writer` by the thread that owns the handle. -/
theorem inv_release {w : Nat} (hw : 0 < w) {s : Sys} (h : Inv w s) (t seq1 : Nat)
    (todo : List (Nat × Byte)) (ht : s.threads t = Thread.wrHold seq1 todo) :
    Inv w (Sys.setThread
      { s with
        lock := { s.lock with seq := wrap w (seq1 + 2), stores := s.lock.stores + 1 }
        hist := s.lock.val :: s.hist } t Thread.idle) := by
  have hodd : s.lock.seq % 2 = 1 := odd_of_hold hw h (t := t) (by rw [ht]; rfl)
  have hself := h.ok t
  rw [ht] at hself
  obtain ⟨hs1, hs2⟩ := hself
  have hev : wrap w (seq1 + 2) % 2 = 0 := by rw [wrap_mod_two hw]; omega
  have hnone : ∀ u, u ≠ t → (s.threads u).isHold = false := by
    intro u hu
    by_contra hc
    exact hu (h.uniq u t (by simpa using hc) (by rw [ht]; rfl))
  refine ⟨?_, ?_, ?_, ?_, ?_, ?_⟩
  · show wrap w (seq1 + 2) = wrap w (2 * (s.lock.stores + 1) + wrap w (seq1 + 2) % 2)
    rw [hev]
    have h1 := h.seq_eq
    rw [hodd, hs1] at h1
    have h2 := wrap_succ_of_wrap w _ _ 1 h1
    simpa [Nat.mul_add, Nat.add_assoc] using h2
  · intro a b ha hb
    simp only [Sys.setThread] at ha hb
    by_cases h1 : a = t
    · simp [h1, Thread.isHold] at ha
    · simp [h1, hnone a h1] at ha
  · intro h1
    simp only [Sys.setThread] at h1
    omega
  · intro _
    simp [Sys.setThread]
  · intro v hv
    simp only [Sys.setThread, List.mem_cons] at hv ⊢
    rcases hv with rfl | hv
    · rfl
    · exact h.len v hv
  · intro u
    by_cases hu : u = t
    · subst hu
      simp [Sys.setThread, ThOk]
    · simp only [Sys.setThread, hu, if_false]
      have hnot := hnone u hu
      have hold := h.ok u
      cases hth : s.threads u <;> rw [hth] at hold hnot <;> simp only [ThOk] at hold ⊢
      · obtain ⟨h1, h2, h3, v, hv, _⟩ := hold
        refine ⟨h1, h2, by omega, v, List.mem_cons_of_mem _ hv, ?_⟩
        intro h4
        omega
      · intro hsp
        obtain ⟨v, hv, he⟩ := hold hsp
        exact ⟨v, List.mem_cons_of_mem _ hv, he⟩
      all_goals simp [Thread.isHold] at hnot

theorem two_mul_two_pow_pred {w : Nat} (hw : 0 < w) : 2 * 2 ^ (w - 1) = 2 ^ w := by
  cases w with
  | zero => omega
  | succ n => simp [Nat.pow_succ, Nat.mul_comm]

/-- Every step keeps the invariant. -/
theorem step_inv {w : Nat} (hw : 0 < w) (s : Sys) (e : Event) (h : Inv w s) :
    Inv w (step w s e) := by
  unfold step
  split
  · rename_i ht ha
    exact inv_setThread h _ _ (by rw [ht]; rfl) (by simp [ThOk])
  · rename_i ms ht ha
    exact inv_setThread h _ _ (by rw [ht]; rfl) (by simp [ThOk])
  · rename_i ht ha
    exact inv_setThread h _ _ (by rw [ht]; rfl) (by simp [ThOk])
  · rename_i ps np nc sp ht ha
    dsimp only
    split
    · exact inv_setThread h _ _ (by rw [ht]; rfl) (by simp [ThOk])
    · rename_i hodd
      have hev : s.lock.seq % 2 = 0 := by omega
      refine inv_setThread h _ _ (by rw [ht]; rfl) ?_
      simp only [ThOk]
      refine ⟨hev, ?_, le_refl _, s.lock.val, ?_, ?_⟩
      · have := h.seq_eq
        rw [hev, Nat.add_zero] at this
        exact this
      · have := h.even_val hev
        exact List.mem_of_mem_head? this
      · intro _ _
        simp
  · rename_i ps np nc seq1 p todo buf c1 sp ht ha
    refine inv_setThread h _ _ (by rw [ht]; rfl) ?_
    have hold := h.ok e.tid
    rw [ht] at hold
    simp only [ThOk] at hold ⊢
    obtain ⟨h1, h2, h3, v, hv, hc⟩ := hold
    refine ⟨h1, h2, h3, v, hv, ?_⟩
    intro h4 h5
    obtain ⟨h6, h7⟩ := hc h4 h5
    refine ⟨h6, ?_⟩
    rw [← h7, h6]
    simp
  · rename_i ps np nc seq1 buf c1 sp ht ha
    dsimp only
    split
    · exact inv_setThread h _ _ (by rw [ht]; rfl) (by simp [ThOk])
    · rename_i hcond
      refine inv_setThread h _ _ (by rw [ht]; rfl) ?_
      have hold := h.ok e.tid
      rw [ht] at hold
      simp only [ThOk] at hold ⊢
      obtain ⟨h1, h2, h3, v, hv, hc⟩ := hold
      intro hspan
      have hseq : seq1 = s.lock.seq := by
        by_contra hne
        exact hcond (Or.inr hne)
      have hev : s.lock.seq % 2 = 0 := by rw [← hseq]; exact h1
      have h4 := h.seq_eq
      rw [hev, Nat.add_zero, ← hseq, h2] at h4
      have h5 : 2 * c1 = 2 * s.lock.stores := by
        refine eq_of_wrap_eq_of_close w _ _ (by omega) ?_ h4
        have := two_mul_two_pow_pred hw
        omega
      obtain ⟨_, h7⟩ := hc (by omega) hev
      exact ⟨v, hv, by simpa using h7⟩
  · rename_i ht ha
    exact inv_setThread h _ _ (by rw [ht]; rfl) (by simp [ThOk])
  · rename_i sp ht ha
    exact inv_setThread h _ _ (by rw [ht]; rfl) (by simp [ThOk])
  · rename_i seq1 sp ht ha
    split
    · exact inv_setThread h _ _ (by rw [ht]; rfl) (by simp [ThOk])
    · rename_i hodd
      split
      · rename_i cur x hcas
        obtain ⟨h1, _, h3⟩ := compare_exchange_weak_true hcas
        rw [h3]
        exact inv_cas hw h _ _ (by omega) h1
      · exact inv_setThread h _ _ (by rw [ht]; rfl) (by simp [ThOk])
  · rename_i seq1 v ht ha
    have hold := h.ok e.tid
    rw [ht] at hold
    exact inv_setThread h _ _ (by rw [ht]; rfl) (by simpa [ThOk] using hold)
  · rename_i seq1 m v ht ha
    have hold := h.ok e.tid
    rw [ht] at hold
    exact inv_setThread h _ _ (by rw [ht]; rfl) (by simpa [ThOk] using hold)
  · rename_i seq1 p b todo sp ht ha
    exact inv_store hw h _ _ _ _ _ _ ht
  · rename_i seq1 ht ha
    exact inv_release hw h _ _ _ ht
  · rename_i seq1 m ht ha
    have hold := h.ok e.tid
    rw [ht] at hold
    exact inv_setThread h _ _ (by rw [ht]; rfl) (by simpa [ThOk] using hold)
  · rename_i seq1 p todo buf sp ht ha
    have hold := h.ok e.tid
    rw [ht] at hold
    exact inv_setThread h _ _ (by rw [ht]; rfl) (by simpa [ThOk] using hold)
  · rename_i seq1 buf ht ha
    have hold := h.ok e.tid
    rw [ht] at hold
    exact inv_setThread h _ _ (by rw [ht]; rfl) (by simpa [ThOk] using hold)
  · exact h

/-- Every state reached from construction satisfies the invariant. -/
theorem run_inv {w : Nat} (hw : 0 < w) (s : Sys) (es : List Event) (h : Inv w s) :
    Inv w (run w s es) := by
  induction es generalizing s with
  | nil => exact h
  | cons e es ih => exact ih _ (step_inv hw s e h)


/-! ### Running one thread without interruption -/

theorem run_append (w : Nat) (s : Sys) (es fs : List Event) :
    run w s (es ++ fs) = run w (run w s es) fs := by
  simp [run, List.foldl_append]

theorem run_cons (w : Nat) (s : Sys) (e : Event) (es : List Event) :
    run w s (e :: es) = run w (step w s e) es := rfl

theorem run_nil (w : Nat) (s : Sys) : run w s [] = s := rfl

theorem Sys.setThread_threads_self (s : Sys) (t : Nat) (th : Thread) :
    (s.setThread t th).threads t = th := by
  simp [Sys.setThread]

theorem Sys.setThread_same (s : Sys) (t : Nat) (th : Thread) (h : s.threads t = th) :
    s.setThread t th = s := by
  cases s with
  | mk lock threads hist =>
    simp only [Sys.setThread]
    congr 1
    funext u
    by_cases hu : u = t
    · subst hu; simpa using h.symm
    · simp [hu]

/-- The byte stores of a write in progress, made one after the other by the
thread that owns the handle. -/
theorem run_hold_ticks (w : Nat) (t seq1 : Nat) (todo : List (Nat × Byte)) (s : Sys)
    (sp : Bool) (ht : s.threads t = Thread.wrHold seq1 todo) :
    run w s (List.replicate todo.length ⟨t, Action.tick sp⟩) =
      Sys.setThread { s with lock := { s.lock with
        val := todo.foldl (fun m pb => m.set pb.1 pb.2) s.lock.val } } t
        (Thread.wrHold seq1 []) := by
  induction todo generalizing s with
  | nil =>
    simp only [List.length_nil, List.replicate_zero, run_nil, List.foldl_nil]
    exact (Sys.setThread_same s t _ ht).symm
  | cons pb todo ih =>
    obtain ⟨p, b⟩ := pb
    simp only [List.length_cons, List.replicate_succ, run_cons, List.foldl_cons]
    have hstep : step w s ⟨t, Action.tick sp⟩ =
        Sys.setThread { s with lock := { s.lock with val := s.lock.val.set p b } } t
          (Thread.wrHold seq1 todo) := by
      simp [step, ht]
    rw [hstep, ih _ (Sys.setThread_threads_self _ _ _)]
    simp only [Sys.setThread]
    congr 1
    funext u
    by_cases hu : u = t <;> simp [hu]

theorem foldl_storeList (size ptr : Nat) (val mem : Bytes) :
    (storeList size ptr val).foldl (fun m pb => m.set pb.1 pb.2) mem =
      internal.store_out_of_order_atomic size mem ptr val := by
  simp [storeList, internal.store_out_of_order_atomic, List.foldl_map]

theorem length_storeList (size ptr : Nat) (val : Bytes) :
    (storeList size ptr val).length = size := by
  simp [storeList]

theorem if_nest {α : Type} (u t : Nat) (a b c : α) :
    (if u = t then a else if u = t then b else c) = if u = t then a else c := by
  by_cases h : u = t <;> simp [h]

/-- The facade `write(new_val)` run by thread `t` alone from a state with an
even counter: the value is stored, the counter advances by two and the value
is committed. -/
theorem run_writeEvents (w : Nat) (s : Sys) (t : Nat) (new_val : Bytes)
    (ht : s.threads t = Thread.idle) (hev : s.lock.seq % 2 = 0) :
    run w s (writeEvents t s.lock.val.length new_val) =
      { lock := { val := internal.store_out_of_order_atomic s.lock.val.length s.lock.val 0 new_val
                  seq := wrap w (s.lock.seq + 2)
                  stores := s.lock.stores + 1 }
        threads := s.threads
        hist := internal.store_out_of_order_atomic s.lock.val.length s.lock.val 0 new_val
                  :: s.hist } := by
  have h1 : step w s ⟨t, Action.get_writer⟩ = s.setThread t Thread.wrLoad := by
    simp [step, ht]
  have h2 : step w (s.setThread t Thread.wrLoad) ⟨t, Action.tick false⟩ =
      s.setThread t (Thread.wrCas s.lock.seq) := by
    simp [step, Sys.setThread, if_nest]
  have h3 : step w (s.setThread t (Thread.wrCas s.lock.seq)) ⟨t, Action.tick false⟩ =
      Sys.setThread { s with lock := { s.lock with seq := wrap w (s.lock.seq + 1) } } t
        (Thread.wrHold s.lock.seq []) := by
    have hne : ¬ s.lock.seq % 2 = 1 := by omega
    simp [step, Sys.setThread, compare_exchange_weak, hne, if_nest]
  have h4 : step w (Sys.setThread { s with lock := { s.lock with seq := wrap w (s.lock.seq + 1) } } t
        (Thread.wrHold s.lock.seq [])) ⟨t, Action.write new_val⟩ =
      Sys.setThread { s with lock := { s.lock with seq := wrap w (s.lock.seq + 1) } } t
        (Thread.wrHold s.lock.seq (storeList s.lock.val.length 0 new_val)) := by
    simp [step, Sys.setThread, if_nest]
  unfold writeEvents
  rw [run_append, run_append]
  simp only [run_cons, run_nil, h1, h2, h3, h4]
  have h5 := run_hold_ticks w t s.lock.seq (storeList s.lock.val.length 0 new_val)
    (Sys.setThread { s with lock := { s.lock with seq := wrap w (s.lock.seq + 1) } } t
        (Thread.wrHold s.lock.seq (storeList s.lock.val.length 0 new_val))) false
    (Sys.setThread_threads_self _ _ _)
  rw [length_storeList] at h5
  rw [h5, foldl_storeList]
  simp only [step, Sys.setThread, if_true]
  congr 1
  funext u
  by_cases hu : u = t
  · subst hu; simp [ht]
  · simp [hu]


/-! ### Snapshot integrity in sequentially consistent executions -/

theorem step_val_length (w : Nat) (s : Sys) (e : Event) :
    (step w s e).lock.val.length = s.lock.val.length := by
  unfold step
  split <;> try rfl
  all_goals try (dsimp only; split <;> rfl)
  · split
    · rfl
    · split <;> rfl
  · simp [Sys.setThread]

theorem run_val_length (w : Nat) (s : Sys) (es : List Event) :
    (run w s es).lock.val.length = s.lock.val.length := by
  induction es generalizing s with
  | nil => rfl
  | cons e es ih => rw [run_cons, ih, step_val_length]

theorem map_getD_range (v : Bytes) : (List.range v.length).map (fun p => v.getD p 0) = v := by
  apply List.ext_getElem
  · simp
  · intro i h1 h2
    simp [List.getD_eq_getElem?_getD, List.getElem?_eq_getElem h2]

theorem map_getD_positions (m : Member) (v : Bytes) (h : m.offset + m.size ≤ v.length) :
    m.positions.map (fun p => v.getD p 0) = m.of v := by
  apply List.ext_getElem
  · simp [Member.positions, Member.of]; omega
  · intro i h1 h2
    simp only [Member.positions, List.length_map, List.length_range] at h1
    have h3 : m.offset + i < v.length := by omega
    simp [Member.positions, Member.of, List.getD_eq_getElem?_getD, List.getElem?_eq_getElem h3]

theorem map_getD_flatMap_positions (ms : List Member) (v : Bytes)
    (h : ∀ m ∈ ms, m.offset + m.size ≤ v.length) :
    (ms.flatMap Member.positions).map (fun p => v.getD p 0)
      = (ms.map (fun m => m.of v)).flatten := by
  induction ms with
  | nil => rfl
  | cons m ms ih =>
    simp only [List.flatMap_cons, List.map_append, List.map_cons, List.flatten_cons]
    rw [map_getD_positions m v (h m (List.mem_cons_self _ _)),
      ih (fun k hk => h k (List.mem_cons_of_mem _ hk))]


/-- Snapshot integrity in the sequentially consistent machine.  In every state
reached from construction by any interleaving of the atomic steps of readers
and writers in which every load returns the newest store, a reader call that
has returned with fewer than `2 ^ (w - 1)` commits between the two counter
loads of its accepted pass returned the bytes of one single committed value
`v` (the constructed value or the value in place at a commit): every byte of
the result is the byte of `v` at the position it was read from; `load()`
returned `v` itself and `load_members` returned the members of `v`, in the
order asked.  With the memory orders of the source this fails
(`tornViewSchedule`). -/
theorem load_returns_one_generation (w : Nat) (hw : 0 < w) (v0 : Bytes) (es : List Event)
    (t : Nat) (ps : List Nat) (np nc : Nat) (res : Bytes) (span : Nat)
    (hdone : (run w (Sys.init v0) es).threads t = Thread.rdDone ps np nc res span)
    (hspan : span < 2 ^ (w - 1)) :
    ∃ v ∈ (run w (Sys.init v0) es).hist,
      res = ps.map (fun p => v.getD p 0) ∧
      (ps = List.range v0.length → res = v) ∧
      (∀ ms : List Member, (∀ m ∈ ms, m.offset + m.size ≤ v0.length) →
        ps = ms.flatMap Member.positions → res = (ms.map (fun m => m.of v)).flatten) := by
  have hinv := run_inv hw (Sys.init v0) es (inv_init w v0)
  have hok := hinv.ok t
  rw [hdone] at hok
  obtain ⟨v, hv, he⟩ := hok hspan
  have hlen : v.length = v0.length := by
    rw [hinv.len v hv, run_val_length]
    rfl
  refine ⟨v, hv, he, ?_, ?_⟩
  · intro hps
    rw [he, hps, ← hlen]
    exact map_getD_range v
  · intro ms hms hps
    rw [he, hps]
    exact map_getD_flatMap_positions ms v (fun m hm => by rw [hlen]; exact hms m hm)

theorem load_returns_one_generation_witness :
    (run 8 (Sys.init [7, 9]) (writeEvents 0 2 [3, 4] ++
        [⟨1, Action.load⟩, ⟨1, Action.tick false⟩, ⟨1, Action.tick false⟩,
         ⟨1, Action.tick false⟩, ⟨1, Action.tick false⟩])).threads 1
      = Thread.rdDone [0, 1] 1 0 [3, 4] 0 ∧
    ∃ v ∈ (run 8 (Sys.init [7, 9]) (writeEvents 0 2 [3, 4] ++
        [⟨1, Action.load⟩, ⟨1, Action.tick false⟩, ⟨1, Action.tick false⟩,
         ⟨1, Action.tick false⟩, ⟨1, Action.tick false⟩])).hist,
      [3, 4] = [0, 1].map (fun p => v.getD p 0) ∧
      ([0, 1] = List.range [(7 : Byte), 9].length → [3, 4] = v) ∧
      (∀ ms : List Member, (∀ m ∈ ms, m.offset + m.size ≤ [(7 : Byte), 9].length) →
        [0, 1] = ms.flatMap Member.positions → [3, 4] = (ms.map (fun m => m.of v)).flatten) :=
  ⟨by decide, load_returns_one_generation 8 (by decide) [7, 9] _ 1 [0, 1] 1 0 [3, 4] 0
    (by decide) (by decide)⟩


/-- A step moves no thread other than its own. -/
theorem step_threads_ne (w : Nat) (s : Sys) (e : Event) (u : Nat) (h : u ≠ e.tid) :
    (step w s e).threads u = s.threads u := by
  unfold step
  split <;> try simp [Sys.setThread, h]
  all_goals try (split <;> simp [Sys.setThread, h])
  · split
    · simp [Sys.setThread, h]
    · split <;> simp [Sys.setThread, h]

theorem run_threads_ne (w : Nat) (s : Sys) (es : List Event) (u : Nat)
    (h : ∀ e ∈ es, u ≠ e.tid) : (run w s es).threads u = s.threads u := by
  induction es generalizing s with
  | nil => rfl
  | cons e es ih =>
    rw [run_cons, ih _ (fun x hx => h x (List.mem_cons_of_mem _ hx)),
      step_threads_ne w s e u (h e (List.mem_cons_self _ _))]

/-- A step of a thread that is not inside `get_writer` and owns no handle
changes neither the lock nor the committed values. -/
theorem step_lock_of_not_writer (w : Nat) (s : Sys) (e : Event)
    (h : (s.threads e.tid).isWriter = false) :
    (step w s e).lock = s.lock ∧ (step w s e).hist = s.hist := by
  unfold step
  split <;> try exact ⟨rfl, rfl⟩
  all_goals try (dsimp only; split <;> exact ⟨rfl, rfl⟩)
  all_goals (rename_i ht _; rw [ht] at h; simp [Thread.isWriter] at h)

theorem store_two_bytes (mem : Bytes) (h : mem.length = 2) (a b : Byte) :
    internal.store_out_of_order_atomic 2 mem 0 [a, b] = [a, b] := by
  match mem, h with
  | [x, y], _ => rfl

/-- Back-to-back `write({1, 1})` calls of thread 0 on an 8-bit counter. -/
theorem run_write_cycles (j : Nat) (s : Sys) (ht : s.threads 0 = Thread.idle)
    (hev : s.lock.seq % 2 = 0) (hlt : s.lock.seq < 256) (hlen : s.lock.val.length = 2) :
    (run 8 s (List.replicate j (writeEvents 0 2 [1, 1])).flatten).threads = s.threads ∧
    (run 8 s (List.replicate j (writeEvents 0 2 [1, 1])).flatten).lock.seq
      = wrap 8 (s.lock.seq + 2 * j) ∧
    (run 8 s (List.replicate j (writeEvents 0 2 [1, 1])).flatten).lock.stores
      = s.lock.stores + j ∧
    (0 < j → (run 8 s (List.replicate j (writeEvents 0 2 [1, 1])).flatten).lock.val = [1, 1]) ∧
    (∀ v ∈ (run 8 s (List.replicate j (writeEvents 0 2 [1, 1])).flatten).hist,
      v = [1, 1] ∨ v ∈ s.hist) := by
  induction j generalizing s with
  | zero =>
    refine ⟨rfl, ?_, rfl, by omega, fun v hv => Or.inr hv⟩
    show s.lock.seq = wrap 8 (s.lock.seq + 2 * 0)
    unfold wrap
    omega
  | succ j ih =>
    have hw := run_writeEvents 8 s 0 [1, 1] ht hev
    rw [hlen, store_two_bytes _ hlen] at hw
    simp only [List.replicate_succ, List.flatten_cons, run_append, hw]
    obtain ⟨h1, h2, h3, h4, h5⟩ := ih
      { lock := { val := [1, 1], seq := wrap 8 (s.lock.seq + 2), stores := s.lock.stores + 1 }
        threads := s.threads, hist := [1, 1] :: s.hist } ht
      (by show wrap 8 (s.lock.seq + 2) % 2 = 0; unfold wrap; omega)
      (by show wrap 8 (s.lock.seq + 2) < 256; unfold wrap; omega) rfl
    refine ⟨h1, ?_, ?_, ?_, ?_⟩
    · rw [h2]; unfold wrap; dsimp only; omega
    · rw [h3]; dsimp only; omega
    · intro _
      rcases Nat.eq_zero_or_pos j with hj | hj
      · subst hj; rfl
      · exact h4 hj
    · intro v hv
      rcases h5 v hv with h | h
      · exact Or.inl h
      · simp only [List.mem_cons] at h
        rcases h with h | h
        · exact Or.inl h
        · exact Or.inr h

/-- The bound on the commits is needed, also in the sequentially consistent
machine: a counter that wraps hides them.  On a lock with an 8-bit
counter constructed with the value `{0, 0}`, thread 1 calls `load()`, loads
`seq1 = 0` and the first byte; thread 0 makes 128 complete `write({1, 1})`
calls, after which the counter is 0 again; thread 1 loads the second byte and
`seq2 = 0` and returns `{0, 1}`, although every value constructed or committed
is `{0, 0}` or `{1, 1}`. -/
theorem load_torn_after_wraparound :
    (run 8 (Sys.init [0, 0]) tornSchedule).threads 1 = Thread.rdDone [0, 1] 1 0 [0, 1] 128 ∧
    (∀ v ∈ (run 8 (Sys.init [0, 0]) tornSchedule).hist, v = [1, 1] ∨ v = [0, 0]) ∧
    ¬ ∃ v ∈ (run 8 (Sys.init [0, 0]) tornSchedule).hist, ([0, 1] : Bytes) = v := by
  have h0 : ∀ u, (run 8 (Sys.init [0, 0])
      [⟨1, Action.load⟩, ⟨1, Action.tick false⟩, ⟨1, Action.tick false⟩]).threads u
      = if u = 1 then Thread.rdBody [0, 1] 1 0 0 [1] [0] 0 else Thread.idle := by
    intro u
    by_cases hu : u = 1
    · subst hu; rfl
    · rw [run_threads_ne 8 _ _ u (by simp [hu]), if_neg hu]
      rfl
  obtain ⟨h1, h2, h3, h4, h5⟩ := run_write_cycles 128 (run 8 (Sys.init [0, 0])
      [⟨1, Action.load⟩, ⟨1, Action.tick false⟩, ⟨1, Action.tick false⟩])
    (by rw [h0]; rfl) (by decide) (by decide) (by decide)
  have h6 := h4 (by decide)
  have hthr : (run 8 (Sys.init [0, 0]) tornSchedule).threads 1
      = Thread.rdDone [0, 1] 1 0 [0, 1] 128 := by
    unfold tornSchedule
    rw [run_append, run_append]
    generalize hs : run 8 (run 8 (Sys.init [0, 0])
      [⟨1, Action.load⟩, ⟨1, Action.tick false⟩, ⟨1, Action.tick false⟩])
      (List.replicate 128 (writeEvents 0 2 [1, 1])).flatten = s at h1 h2 h3 h6
    have ht : s.threads 1 = Thread.rdBody [0, 1] 1 0 0 [1] [0] 0 := by
      rw [h1, h0]; rfl
    have hseq : s.lock.seq = 0 := by rw [h2]; decide
    have hst : s.lock.stores = 128 := by rw [h3]; rfl
    simp [run, step, ht, hseq, hst, h6, Sys.setThread]
  have hhist : ∀ v ∈ (run 8 (Sys.init [0, 0]) tornSchedule).hist, v = [1, 1] ∨ v = [0, 0] := by
    intro v hv
    unfold tornSchedule at hv
    rw [run_append, run_append] at hv
    generalize hs : run 8 (run 8 (Sys.init [0, 0])
      [⟨1, Action.load⟩, ⟨1, Action.tick false⟩, ⟨1, Action.tick false⟩])
      (List.replicate 128 (writeEvents 0 2 [1, 1])).flatten = s at h1 h5 hv
    have ht : s.threads 1 = Thread.rdBody [0, 1] 1 0 0 [1] [0] 0 := by
      rw [h1, h0]; rfl
    have e1 := step_lock_of_not_writer 8 s ⟨1, Action.tick false⟩ (by rw [ht]; rfl)
    have ht2 : (step 8 s ⟨1, Action.tick false⟩).threads 1
        = Thread.rdBody [0, 1] 1 0 0 [] ([0] ++ [s.lock.val.getD 1 0]) 0 := by
      simp [step, ht, Sys.setThread]
    have e2 := step_lock_of_not_writer 8 (step 8 s ⟨1, Action.tick false⟩)
      ⟨1, Action.tick false⟩ (by rw [ht2]; rfl)
    rw [run_cons, run_cons, run_nil, e2.2, e1.2] at hv
    rcases h5 v hv with h | h
    · exact Or.inl h
    · right
      have e3 : (run 8 (Sys.init [0, 0])
          [⟨1, Action.load⟩, ⟨1, Action.tick false⟩, ⟨1, Action.tick false⟩]).hist = [[0, 0]] := rfl
      rw [e3] at h
      simpa using h
  refine ⟨hthr, hhist, ?_⟩
  rintro ⟨v, hv, he⟩
  rcases hhist v hv with h | h <;> rw [h] at he <;> exact absurd he (by decide)


/-! ### Counter parity and ownership (C2) -/

/-- C2.  In every state reached from construction (counter 0, no handle) by
any interleaving of atomic steps, the counter is even if and only if no thread
owns a handle, and odd if and only if exactly one thread owns a handle; so at
most one owning handle is live at any time. -/
theorem counter_parity_iff_owner (w : Nat) (hw : 0 < w) (v0 : Bytes) (es : List Event) :
    ((run w (Sys.init v0) es).lock.seq % 2 = 0 ↔
      ∀ t, ((run w (Sys.init v0) es).threads t).isHold = false) ∧
    ((run w (Sys.init v0) es).lock.seq % 2 = 1 ↔
      ∃ t, ((run w (Sys.init v0) es).threads t).isHold = true ∧
        ∀ u, ((run w (Sys.init v0) es).threads u).isHold = true → u = t) ∧
    (∀ t u, ((run w (Sys.init v0) es).threads t).isHold = true →
      ((run w (Sys.init v0) es).threads u).isHold = true → t = u) := by
  have hinv := run_inv hw (Sys.init v0) es (inv_init w v0)
  generalize run w (Sys.init v0) es = s at hinv
  refine ⟨⟨?_, ?_⟩, ⟨?_, ?_⟩, hinv.uniq⟩
  · intro hev t
    by_contra hc
    have := odd_of_hold hw hinv (t := t) (by simpa using hc)
    omega
  · intro hnone
    by_contra hc
    obtain ⟨t, ht⟩ := hinv.odd_hold (by omega)
    rw [hnone t] at ht
    exact absurd ht (by decide)
  · intro hodd
    obtain ⟨t, ht⟩ := hinv.odd_hold hodd
    exact ⟨t, ht, fun u hu => hinv.uniq u t hu ht⟩
  · rintro ⟨t, ht, _⟩
    exact odd_of_hold hw hinv ht

theorem counter_parity_iff_owner_witness :
    0 < 8 ∧
    (run 8 (Sys.init [7, 9]) [⟨0, Action.get_writer⟩, ⟨0, Action.tick false⟩,
        ⟨1, Action.get_writer⟩, ⟨1, Action.tick false⟩, ⟨0, Action.tick false⟩,
        ⟨1, Action.tick false⟩]).lock.seq = 1 ∧
    ((run 8 (Sys.init [7, 9]) [⟨0, Action.get_writer⟩, ⟨0, Action.tick false⟩,
        ⟨1, Action.get_writer⟩, ⟨1, Action.tick false⟩, ⟨0, Action.tick false⟩,
        ⟨1, Action.tick false⟩]).lock.seq % 2 = 1 ↔
      ∃ t, ((run 8 (Sys.init [7, 9]) [⟨0, Action.get_writer⟩, ⟨0, Action.tick false⟩,
        ⟨1, Action.get_writer⟩, ⟨1, Action.tick false⟩, ⟨0, Action.tick false⟩,
        ⟨1, Action.tick false⟩]).threads t).isHold = true ∧
        ∀ u, ((run 8 (Sys.init [7, 9]) [⟨0, Action.get_writer⟩, ⟨0, Action.tick false⟩,
        ⟨1, Action.get_writer⟩, ⟨1, Action.tick false⟩, ⟨0, Action.tick false⟩,
        ⟨1, Action.tick false⟩]).threads u).isHold = true → u = t) :=
  ⟨by decide, by decide, (counter_parity_iff_owner 8 (by decide) [7, 9] _).2.1⟩


/-! ### The byte transfer functions -/

namespace internal

theorem store_succ (size : Nat) (mem : Bytes) (ptr : Nat) (val : Bytes) :
    store_out_of_order_atomic (size + 1) mem ptr val =
      (store_out_of_order_atomic size mem ptr val).set (ptr + size) (val.getD size 0) := by
  simp [store_out_of_order_atomic, List.range_succ, List.foldl_append]

theorem length_store (size : Nat) (mem : Bytes) (ptr : Nat) (val : Bytes) :
    (store_out_of_order_atomic size mem ptr val).length = mem.length := by
  induction size with
  | zero => rfl
  | succ n ih => rw [store_succ, List.length_set, ih]

/-- Byte `j` of the storage after `store_out_of_order_atomic`. -/
theorem getElem?_store (size : Nat) (mem : Bytes) (ptr : Nat) (val : Bytes) (j : Nat) :
    (store_out_of_order_atomic size mem ptr val)[j]? =
      if ptr ≤ j ∧ j < ptr + size ∧ j < mem.length then some (val.getD (j - ptr) 0)
      else mem[j]? := by
  induction size with
  | zero =>
    have : ¬ (ptr ≤ j ∧ j < ptr + 0 ∧ j < mem.length) := by omega
    rw [if_neg this]
    rfl
  | succ n ih =>
    rw [store_succ, List.getElem?_set, ih, length_store]
    by_cases h1 : ptr + n = j
    · subst h1
      by_cases h2 : ptr + n < mem.length
      · simp [h2]
      · have h3 : mem[ptr + n]? = none := List.getElem?_eq_none (by omega)
        simp [h2, h3]
    · by_cases h2 : ptr ≤ j ∧ j < ptr + n ∧ j < mem.length
      · have h3 : ptr ≤ j ∧ j < ptr + (n + 1) ∧ j < mem.length := by omega
        simp only [h1, if_false, if_pos h2, if_pos h3]
      · have h3 : ¬ (ptr ≤ j ∧ j < ptr + (n + 1) ∧ j < mem.length) := by omega
        simp only [h1, if_false, if_neg h2, if_neg h3]

/-- The loop of `read_out_of_order_atomic` after `k` rounds, from any `res`. -/
theorem getElem?_read_fold (mem : Bytes) (ptr k : Nat) (res : Bytes) (i : Nat) :
    ((List.range k).foldl (fun res i => res.set i (mem.getD (ptr + i) 0)) res)[i]? =
      if i < k ∧ i < res.length then some (mem.getD (ptr + i) 0) else res[i]? := by
  induction k with
  | zero => simp
  | succ n ih =>
    have hlen : ((List.range n).foldl (fun res i => res.set i (mem.getD (ptr + i) 0)) res).length
        = res.length := by
      clear ih
      induction n with
      | zero => rfl
      | succ m ihm =>
        simp only [List.range_succ, List.foldl_append, List.foldl_cons, List.foldl_nil,
          List.length_set, ihm]
    rw [List.range_succ, List.foldl_append, List.foldl_cons, List.foldl_nil,
      List.getElem?_set, ih, hlen]
    by_cases h1 : n = i
    · subst h1
      by_cases h2 : n < res.length
      · simp [h2]
      · have h3 : res[n]? = none := List.getElem?_eq_none (by omega)
        simp [h2, h3]
    · by_cases h2 : i < n ∧ i < res.length
      · have h3 : i < n + 1 ∧ i < res.length := by omega
        simp only [h1, if_false, if_pos h2, if_pos h3]
      · have h3 : ¬ (i < n + 1 ∧ i < res.length) := by omega
        simp only [h1, if_false, if_neg h2, if_neg h3]

/-- Byte `i` of the value `read_out_of_order_atomic` returns. -/
theorem getElem?_read (size : Nat) (mem : Bytes) (ptr i : Nat) :
    (read_out_of_order_atomic size mem ptr)[i]? =
      if i < size then some (mem.getD (ptr + i) 0) else none := by
  unfold read_out_of_order_atomic
  rw [getElem?_read_fold]
  by_cases h : i < size
  · simp [h]
  · simp [h]
    omega

/-- Reading a member that lies inside the storage returns its bytes. -/
theorem read_eq_of (m : Member) (mem : Bytes) (h : m.offset + m.size ≤ mem.length) :
    read_out_of_order_atomic m.size mem m.offset = m.of mem := by
  apply List.ext_getElem?
  intro i
  rw [getElem?_read, Member.of, List.getElem?_take, List.getElem?_drop]
  by_cases hi : i < m.size
  · have : m.offset + i < mem.length := by omega
    simp [hi, List.getElem?_eq_getElem this]
  · simp [hi]

/-- Reading the whole storage returns it. -/
theorem read_whole (mem : Bytes) : read_out_of_order_atomic mem.length mem 0 = mem := by
  have := read_eq_of ⟨0, mem.length⟩ mem (by simp)
  simpa [Member.of] using this

/-- Storing a whole value over storage of the same size leaves the value. -/
theorem store_whole (mem val : Bytes) (h : val.length = mem.length) :
    store_out_of_order_atomic mem.length mem 0 val = val := by
  apply List.ext_getElem?
  intro j
  rw [getElem?_store]
  by_cases hj : j < mem.length
  · have : j < val.length := by omega
    simp [hj, List.getElem?_eq_getElem this]
  · have h1 : val[j]? = none := List.getElem?_eq_none (by omega)
    have h2 : mem[j]? = none := List.getElem?_eq_none (by omega)
    simp [hj, h1, h2]

end internal


/-! ### The sequential view: acquiring, writing, releasing (C3) -/

theorem Heap.set_self (heap : Heap) (p : Nat) (lk : SeqLock) : heap.set p lk p = lk := by
  simp [Heap.set]

theorem Heap.set_ne (heap : Heap) {p q : Nat} (lk : SeqLock) (h : q ≠ p) :
    heap.set p lk q = heap q := by
  simp [Heap.set, h]

theorem succ_lt_of_even {w s : Nat} (hw : 0 < w) (hev : s % 2 = 0) (hlt : s < 2 ^ w) :
    s + 1 < 2 ^ w := by
  obtain ⟨k, hk⟩ := two_dvd_two_pow hw
  omega

theorem wrap_succ_of_even {w s : Nat} (hw : 0 < w) (hev : s % 2 = 0) (hlt : s < 2 ^ w) :
    wrap w (s + 1) = s + 1 :=
  Nat.mod_eq_of_lt (succ_lt_of_even hw hev hlt)

/-- On a lock with an even counter `get_writer`, run alone, leaves its loop at
the first compare-and-swap that does not fail spuriously. -/
theorem get_writer_loop_even (w : Nat) (heap : Heap) (this : Nat)
    (hev : (heap this).seq % 2 = 0) (spur : List Bool) (fuel nc : Nat)
    (hfuel : spur.length < fuel) :
    ∃ nc2, SeqLock.get_writer_loop w heap this fuel spur (heap this).seq nc =
      some ({ parent := some this, seq1 := (heap this).seq },
        heap.set this { heap this with seq := wrap w ((heap this).seq + 1) }, nc2) := by
  induction spur generalizing fuel nc with
  | nil =>
    obtain ⟨f, rfl⟩ : ∃ f, fuel = f + 1 := ⟨fuel - 1, by simp at hfuel; omega⟩
    have hne : ¬ (heap this).seq % 2 = 1 := by omega
    exact ⟨nc, by simp [SeqLock.get_writer_loop, hne, compare_exchange_weak]⟩
  | cons b spur ih =>
    obtain ⟨f, rfl⟩ : ∃ f, fuel = f + 1 := ⟨fuel - 1, by simp at hfuel; omega⟩
    have hne : ¬ (heap this).seq % 2 = 1 := by omega
    cases b with
    | false => exact ⟨nc, by simp [SeqLock.get_writer_loop, hne, compare_exchange_weak]⟩
    | true =>
      obtain ⟨nc2, h2⟩ := ih f (nc + 1) (by simp at hfuel; omega)
      exact ⟨nc2, by simp [SeqLock.get_writer_loop, hne, compare_exchange_weak, h2]⟩

/-- C3.  On a lock with an even counter `s` (no live handle) and for every
value `v` of the protected type, `write(v)` returns: `get_writer` yields a
handle with base `s` and leaves the counter at `s + 1`, `Writer::write(v)`
leaves the stored value equal to `v` with the counter still `s + 1`, and the
destructor leaves the value `v` and the counter `(s + 2) mod 2 ^ w`, having
stored the counter once. -/
theorem write_advances_counter_by_two (w : Nat) (hw : 0 < w) (heap : Heap) (this : Nat)
    (v : Bytes) (spur : List Bool) (fuel : Nat)
    (hev : (heap this).seq % 2 = 0) (hlt : (heap this).seq < 2 ^ w)
    (hv : v.length = (heap this).val.length) (hfuel : spur.length < fuel) :
    ∃ writer heap1 nc heap2 heap3,
      SeqLock.get_writer w heap this fuel spur = some (writer, heap1, nc) ∧
      writer = { parent := some this, seq1 := (heap this).seq } ∧
      (heap1 this).seq = (heap this).seq + 1 ∧ (heap1 this).val = (heap this).val ∧
      writer.write heap1 v = some heap2 ∧
      (heap2 this).seq = (heap this).seq + 1 ∧ (heap2 this).val = v ∧
      writer.dtor w heap2 = heap3 ∧
      SeqLock.write w heap this v fuel spur = some heap3 ∧
      (heap3 this).val = v ∧
      (heap3 this).seq = ((heap this).seq + 2) % 2 ^ w ∧
      (heap3 this).stores = (heap this).stores + 1 ∧
      (∀ q, q ≠ this → heap3 q = heap q) := by
  obtain ⟨nc, hg⟩ := get_writer_loop_even w heap this hev spur fuel 0 hfuel
  have hg2 : SeqLock.get_writer w heap this fuel spur = _ := hg
  refine ⟨_, _, nc, _, _, hg2, rfl, ?_, ?_, rfl, ?_, ?_, rfl, ?_, ?_, ?_, ?_, ?_⟩
  · rw [Heap.set_self]; exact wrap_succ_of_even hw hev hlt
  · rw [Heap.set_self]
  · simp only [Heap.set_self]; exact wrap_succ_of_even hw hev hlt
  · simp only [Heap.set_self]; exact internal.store_whole _ _ hv
  · simp [SeqLock.write, hg2, Writer.write]
  · simp only [Writer.dtor, Heap.set_self]; exact internal.store_whole _ _ hv
  · simp only [Writer.dtor, Heap.set_self]; rfl
  · simp only [Writer.dtor, Heap.set_self]
  · intro q hq
    simp only [Writer.dtor, Heap.set_ne _ _ hq]

theorem write_advances_counter_by_two_witness :
    ∃ writer heap1 nc heap2 heap3,
      SeqLock.get_writer 8 (fun _ => ⟨[7, 9], 254, 127⟩) 0 3 [true, true]
        = some (writer, heap1, nc) ∧
      writer = { parent := some 0, seq1 := 254 } ∧
      (heap1 0).seq = 254 + 1 ∧ (heap1 0).val = [7, 9] ∧
      writer.write heap1 [3, 4] = some heap2 ∧
      (heap2 0).seq = 254 + 1 ∧ (heap2 0).val = [3, 4] ∧
      writer.dtor 8 heap2 = heap3 ∧
      SeqLock.write 8 (fun _ => ⟨[7, 9], 254, 127⟩) 0 [3, 4] 3 [true, true] = some heap3 ∧
      (heap3 0).val = [3, 4] ∧
      (heap3 0).seq = (254 + 2) % 2 ^ 8 ∧
      (heap3 0).stores = 127 + 1 ∧
      (∀ q, q ≠ 0 → heap3 q = (⟨[7, 9], 254, 127⟩ : SeqLock)) :=
  write_advances_counter_by_two 8 (by decide) (fun _ => ⟨[7, 9], 254, 127⟩) 0 [3, 4]
    [true, true] 3 (by decide) (by decide) (by decide) (by decide)


/-! ### Handles and ownership transfer (C4, C5) -/

/-- C4, the code at the failing input.  With an 8-bit counter and two locks
`a`, `b` constructed with `{7, 9}`: after `auto ha = a.get_writer();
auto hb = b.get_writer(); ha = std::move(hb);` and the destruction of both
handles, the counter of `a` is still 1 (base 0 plus one, odd) and was never
stored, while `b` was released once; the same happens to `a` after
`ha = std::move(ha)`; and `load()` on `a` returns for no amount of fuel. -/
theorem move_assign_leaves_slot_unreleased :
    (moveAssignScenario 8 [7, 9]).map (fun wd => (wd.heap 0, wd.heap 1))
      = some (⟨[7, 9], 1, 0⟩, ⟨[7, 9], 2, 1⟩) ∧
    (selfMoveAssignScenario 8 [7, 9]).map (fun wd => wd.heap 0) = some ⟨[7, 9], 1, 0⟩ ∧
    ¬ ∃ fuel, (SeqLock.load (fun _ => ⟨[7, 9], 1, 0⟩) 0 fuel).isSome = true := by
  refine ⟨by decide, by decide, ?_⟩
  rintro ⟨fuel, h⟩
  have key : ∀ fuel np nc, SeqLock.run_in_reader_section
      (fun lk => internal.read_out_of_order_atomic lk.val.length lk.val 0)
      (⟨[7, 9], 1, 0⟩ : SeqLock) fuel np nc = none := by
    intro fuel
    induction fuel with
    | zero => intro np nc; rfl
    | succ n ih => intro np nc; simp [SeqLock.run_in_reader_section, ih]
  simp [SeqLock.load, key] at h

/-- C5.  For a handle obtained by `get_writer` with base `s` (handle object at
address `a`), after `Writer h2(std::move(h))` (new object at address `b`) the
moved-from handle has a null parent and its destruction leaves the heap as it
is, counter `s + 1`; the destruction of `h2` stores `s + 2` in the counter
type.  In either order of destruction the counter ends at `(s + 2) mod 2 ^ w`
(which is `s + 2` unless the counter wraps) and was stored exactly once. -/
theorem move_ctor_releases_once (w : Nat) (hw : 0 < w) (wd : World) (lock a b : Nat)
    (spur : List Bool) (fuel : Nat) (hab : a ≠ b)
    (hev : (wd.heap lock).seq % 2 = 0) (hlt : (wd.heap lock).seq < 2 ^ w)
    (hfuel : spur.length < fuel) :
    ∃ wd1 wd2 wd3 wd4 wd5 wd6,
      wd.get_writer w lock a fuel spur = some wd1 ∧
      wd1.handles a = some { parent := some lock, seq1 := (wd.heap lock).seq } ∧
      wd1.move_construct b a = some wd2 ∧
      wd2.handles a = some { parent := none, seq1 := (wd.heap lock).seq } ∧
      wd2.handles b = some { parent := some lock, seq1 := (wd.heap lock).seq } ∧
      (wd2.heap lock).seq = (wd.heap lock).seq + 1 ∧
      -- the moved-from handle first
      wd2.destroy w a = some wd3 ∧ wd3.heap = wd2.heap ∧
      (wd3.heap lock).seq = (wd.heap lock).seq + 1 ∧
      wd3.destroy w b = some wd4 ∧
      (wd4.heap lock).seq = wrap w ((wd.heap lock).seq + 2) ∧
      (wd4.heap lock).stores = (wd.heap lock).stores + 1 ∧
      -- the new handle first
      wd2.destroy w b = some wd5 ∧
      (wd5.heap lock).seq = wrap w ((wd.heap lock).seq + 2) ∧
      wd5.destroy w a = some wd6 ∧ wd6.heap = wd5.heap ∧
      (wd6.heap lock).seq = wrap w ((wd.heap lock).seq + 2) ∧
      (wd6.heap lock).stores = (wd.heap lock).stores + 1 ∧
      ((wd.heap lock).seq + 2 < 2 ^ w →
        (wd4.heap lock).seq = (wd.heap lock).seq + 2 ∧
        (wd6.heap lock).seq = (wd.heap lock).seq + 2) ∧
      (wd4.heap lock).seq % 2 = 0 ∧ (wd6.heap lock).seq % 2 = 0 := by
  obtain ⟨nc, hg⟩ := get_writer_loop_even w wd.heap lock hev spur fuel 0 hfuel
  have hg2 : SeqLock.get_writer w wd.heap lock fuel spur = _ := hg
  have hba : b ≠ a := fun h => hab h.symm
  have hs1 := wrap_succ_of_even hw hev hlt
  have hev2 : wrap w ((wd.heap lock).seq + 2) % 2 = 0 := by rw [wrap_mod_two hw]; omega
  have hwr : (wd.heap lock).seq + 2 < 2 ^ w → wrap w ((wd.heap lock).seq + 2)
      = (wd.heap lock).seq + 2 := fun h => Nat.mod_eq_of_lt h
  let heap1 : Heap :=
    wd.heap.set lock { wd.heap lock with seq := wrap w ((wd.heap lock).seq + 1) }
  let h : Writer := { parent := some lock, seq1 := (wd.heap lock).seq }
  let h0 : Writer := { parent := none, seq1 := (wd.heap lock).seq }
  let hs2 : Handles := ((wd.handles.set a (some h)).set a (some h0)).set b (some h)
  have e1 : hs2 a = some h0 := by simp [hs2, Handles.set, hab]
  have e2 : hs2 b = some h := by simp [hs2, Handles.set]
  have e3 : (hs2.set a none) b = some h := by simp [Handles.set, hba, e2]
  have e4 : (hs2.set b none) a = some h0 := by simp [Handles.set, hab, e1]
  refine ⟨⟨heap1, wd.handles.set a (some h)⟩, ⟨heap1, hs2⟩, ⟨heap1, hs2.set a none⟩,
    ⟨h.dtor w heap1, (hs2.set a none).set b none⟩, ⟨h.dtor w heap1, hs2.set b none⟩,
    ⟨h.dtor w heap1, (hs2.set b none).set a none⟩, ?_, ?_, ?_, e1, e2, ?_, ?_, rfl, ?_, ?_,
    ?_, ?_, ?_, ?_, ?_, rfl, ?_, ?_, ?_, ?_, ?_⟩
  · simp [World.get_writer, hg2, heap1, h]
  · simp [Handles.set]
  · simp [World.move_construct, Handles.set, Writer.move_ctor, hs2, h, h0]
  · simp [heap1, Heap.set_self, hs1]
  · simp [World.destroy, e1, Writer.dtor, h0]
  · simp [heap1, Heap.set_self, hs1]
  · simp [World.destroy, e3]
  · simp [Writer.dtor, h, Heap.set_self]
  · simp [Writer.dtor, h, heap1, Heap.set_self]
  · simp [World.destroy, e2]
  · simp [Writer.dtor, h, Heap.set_self]
  · simp [World.destroy, e4, Writer.dtor, h0]
  · simp [Writer.dtor, h, Heap.set_self]
  · simp [Writer.dtor, h, heap1, Heap.set_self]
  · intro hlt2
    simp [Writer.dtor, h, Heap.set_self, hwr hlt2]
  · simp [Writer.dtor, h, Heap.set_self, hev2]
  · simp [Writer.dtor, h, Heap.set_self, hev2]

theorem move_ctor_releases_once_witness :
    ∃ wd1 wd2 wd3 wd4 wd5 wd6,
      World.get_writer 8 ⟨fun _ => ⟨[7, 9], 254, 127⟩, fun _ => none⟩ 0 0 1 [] = some wd1 ∧
      wd1.handles 0 = some { parent := some 0, seq1 := 254 } ∧
      wd1.move_construct 1 0 = some wd2 ∧
      wd2.handles 0 = some { parent := none, seq1 := 254 } ∧
      wd2.handles 1 = some { parent := some 0, seq1 := 254 } ∧
      (wd2.heap 0).seq = 254 + 1 ∧
      wd2.destroy 8 0 = some wd3 ∧ wd3.heap = wd2.heap ∧
      (wd3.heap 0).seq = 254 + 1 ∧
      wd3.destroy 8 1 = some wd4 ∧
      (wd4.heap 0).seq = wrap 8 (254 + 2) ∧
      (wd4.heap 0).stores = 127 + 1 ∧
      wd2.destroy 8 1 = some wd5 ∧
      (wd5.heap 0).seq = wrap 8 (254 + 2) ∧
      wd5.destroy 8 0 = some wd6 ∧ wd6.heap = wd5.heap ∧
      (wd6.heap 0).seq = wrap 8 (254 + 2) ∧
      (wd6.heap 0).stores = 127 + 1 ∧
      (254 + 2 < 2 ^ 8 → (wd4.heap 0).seq = 254 + 2 ∧ (wd6.heap 0).seq = 254 + 2) ∧
      (wd4.heap 0).seq % 2 = 0 ∧ (wd6.heap 0).seq % 2 = 0 :=
  move_ctor_releases_once 8 (by decide) ⟨fun _ => ⟨[7, 9], 254, 127⟩, fun _ => none⟩ 0 0 1 [] 1
    (by decide) (by decide) (by decide) (by decide)


/-! ### Reading with no concurrent writer (C6, C7) -/

/-- On a lock with an even counter the reader loop, run alone, returns after
one pass with no policy call. -/
theorem run_in_reader_section_even {α : Type} (f : SeqLock → α) (lk : SeqLock)
    (hev : lk.seq % 2 = 0) (fuel np nc : Nat) (hfuel : 0 < fuel) :
    SeqLock.run_in_reader_section f lk fuel np nc
      = some { value := f lk, passes := np + 1, conflicts := nc } := by
  obtain ⟨n, rfl⟩ : ∃ n, fuel = n + 1 := ⟨fuel - 1, by omega⟩
  have hne : ¬ lk.seq % 2 = 1 := by omega
  simp [SeqLock.run_in_reader_section, hne]

theorem load_even (heap : Heap) (this : Nat) (fuel : Nat) (hev : (heap this).seq % 2 = 0)
    (hfuel : 0 < fuel) :
    SeqLock.load heap this fuel = some { value := (heap this).val, passes := 1, conflicts := 0 } := by
  unfold SeqLock.load
  rw [run_in_reader_section_even _ _ hev _ _ _ hfuel, internal.read_whole]

/-- The facade `write(v)` run alone on a lock with an even counter returns and
leaves the value `v` under an even counter. -/
theorem write_even (w : Nat) (hw : 0 < w) (heap : Heap) (this : Nat) (v : Bytes)
    (spur : List Bool) (fuel : Nat) (hev : (heap this).seq % 2 = 0)
    (hv : v.length = (heap this).val.length) (hfuel : spur.length < fuel) :
    ∃ heap3, SeqLock.write w heap this v fuel spur = some heap3 ∧
      (heap3 this).val = v ∧ (heap3 this).seq % 2 = 0 ∧ (heap3 this).seq < 2 ^ w := by
  obtain ⟨nc, hg⟩ := get_writer_loop_even w heap this hev spur fuel 0 hfuel
  have hg2 : SeqLock.get_writer w heap this fuel spur = _ := hg
  unfold SeqLock.write
  rw [hg2]
  dsimp only
  simp only [Writer.write, Option.map_some']
  refine ⟨_, rfl, ?_, ?_, ?_⟩
  · simp only [Writer.dtor, Heap.set_self]; exact internal.store_whole _ _ hv
  · simp only [Writer.dtor, Heap.set_self]
    rw [wrap_mod_two hw]
    omega
  · simp only [Writer.dtor, Heap.set_self]
    exact wrap_lt _ _

/-- C6.  With no concurrent writer `load()` returns the whole stored value: on
a lock just constructed with `v0` it returns `v0`; after `write(v1)` it returns
`v1`; after `write(v1); write(v2)` it returns `v2`.  Every call returns (with
fuel beyond the spurious failures of the weak compare-and-swap), `load()` in
one pass. -/
theorem load_returns_stored_value (w : Nat) (hw : 0 < w) (heap : Heap) (this : Nat)
    (v0 v1 v2 : Bytes) (spur1 spur2 : List Bool) (fuel1 fuel2 fuel : Nat)
    (hev : (heap this).seq % 2 = 0)
    (hl1 : v1.length = (heap this).val.length) (hl2 : v2.length = (heap this).val.length)
    (hf1 : spur1.length < fuel1) (hf2 : spur2.length < fuel2) (hf : 0 < fuel) :
    (SeqLock.load (heap.set this (SeqLock.construct v0)) this fuel).map (fun r => r.value)
      = some v0 ∧
    ∃ heap1 heap2,
      SeqLock.write w heap this v1 fuel1 spur1 = some heap1 ∧
      (SeqLock.load heap1 this fuel).map (fun r => r.value) = some v1 ∧
      SeqLock.write w heap1 this v2 fuel2 spur2 = some heap2 ∧
      (SeqLock.load heap2 this fuel).map (fun r => r.value) = some v2 := by
  constructor
  · rw [load_even _ _ _ (by rw [Heap.set_self]; rfl) hf, Heap.set_self]
    rfl
  · obtain ⟨heap1, hw1, hval1, hev1, _⟩ := write_even w hw heap this v1 spur1 fuel1 hev hl1 hf1
    obtain ⟨heap2, hw2, hval2, hev2, _⟩ := write_even w hw heap1 this v2 spur2 fuel2 hev1
      (by rw [hval1, hl2, hl1]) hf2
    refine ⟨heap1, heap2, hw1, ?_, hw2, ?_⟩
    · rw [load_even _ _ _ hev1 hf, hval1]; rfl
    · rw [load_even _ _ _ hev2 hf, hval2]; rfl

theorem load_returns_stored_value_witness :
    (SeqLock.load (Heap.set (fun _ => ⟨[7, 9], 4, 2⟩) 0 (SeqLock.construct [1, 2])) 0 1).map
        (fun r => r.value) = some [1, 2] ∧
    ∃ heap1 heap2,
      SeqLock.write 8 (fun _ => ⟨[7, 9], 4, 2⟩) 0 [3, 4] 2 [true] = some heap1 ∧
      (SeqLock.load heap1 0 1).map (fun r => r.value) = some [3, 4] ∧
      SeqLock.write 8 heap1 0 [5, 6] 1 [] = some heap2 ∧
      (SeqLock.load heap2 0 1).map (fun r => r.value) = some [5, 6] :=
  load_returns_stored_value 8 (by decide) (fun _ => ⟨[7, 9], 4, 2⟩) 0 [1, 2] [3, 4] [5, 6]
    [true] [] 2 1 1 (by decide) (by decide) (by decide) (by decide) (by decide) (by decide)

/-- C7.  With no concurrent writer, `load_members(m1, ..., mn)` returns (in one
pass) the tuple whose `i`-th component is member `mi` of the value `load()`
returns, in the order the member pointers were passed. -/
theorem load_members_in_order (heap : Heap) (this : Nat) (ms : List Member) (fuel : Nat)
    (hev : (heap this).seq % 2 = 0) (hf : 0 < fuel)
    (hin : ∀ m ∈ ms, m.offset + m.size ≤ (heap this).val.length) :
    ∃ r rm,
      SeqLock.load heap this fuel = some r ∧
      SeqLock.load_members heap this ms fuel = some rm ∧
      rm.value = ms.map (fun m => m.of r.value) ∧
      rm.value.length = ms.length ∧
      (∀ (i : Nat) (m : Member), ms[i]? = some m → rm.value[i]? = some (m.of r.value)) ∧
      rm.passes = 1 ∧ rm.conflicts = 0 := by
  have hmap : ms.map (fun m => internal.read_out_of_order_atomic m.size (heap this).val m.offset)
      = ms.map (fun m => m.of (heap this).val) :=
    List.map_congr_left (fun m hm => internal.read_eq_of m _ (hin m hm))
  refine ⟨{ value := (heap this).val, passes := 1, conflicts := 0 },
    { value := ms.map (fun m => m.of (heap this).val), passes := 1, conflicts := 0 },
    load_even heap this fuel hev hf, ?_, rfl, by simp, ?_, rfl, rfl⟩
  · unfold SeqLock.load_members
    rw [run_in_reader_section_even _ _ hev _ _ _ hf, hmap]
  · intro i m hi
    simp only [List.getElem?_map, hi, Option.map_some']

/-- The layout of `TestData` in `test.cpp` under the usual 64-bit ABI:
`c` at 0, `w` at 4, `x` at 8, `arr` at 16; the stored bytes are numbered so
that the members can be told apart. -/
theorem load_members_in_order_witness :
    ∃ r rm,
      SeqLock.load (fun _ => ⟨(List.range 24).map (fun i => (Fin.ofNat i : Byte)), 0, 0⟩) 0 1
        = some r ∧
      SeqLock.load_members (fun _ => ⟨(List.range 24).map (fun i => (Fin.ofNat i : Byte)), 0, 0⟩)
        0 [⟨8, 8⟩, ⟨4, 4⟩] 1 = some rm ∧
      rm.value = ([⟨8, 8⟩, ⟨4, 4⟩] : List Member).map (fun m => m.of r.value) ∧
      rm.value.length = [(⟨8, 8⟩ : Member), ⟨4, 4⟩].length ∧
      (∀ (i : Nat) (m : Member), [(⟨8, 8⟩ : Member), ⟨4, 4⟩][i]? = some m →
        rm.value[i]? = some (m.of r.value)) ∧
      rm.passes = 1 ∧ rm.conflicts = 0 :=
  load_members_in_order (fun _ => ⟨(List.range 24).map (fun i => (Fin.ofNat i : Byte)), 0, 0⟩)
    0 [⟨8, 8⟩, ⟨4, 4⟩] 1 (by decide) (by decide) (by decide)


/-! ### Reads and writes through one handle (C8, C9) -/

namespace internal

theorem getD_store_outside (size : Nat) (mem : Bytes) (ptr : Nat) (val : Bytes) (j : Nat)
    (h : j < ptr ∨ ptr + size ≤ j) :
    (store_out_of_order_atomic size mem ptr val).getD j 0 = mem.getD j 0 := by
  have hn : ¬ (ptr ≤ j ∧ j < ptr + size ∧ j < mem.length) := by omega
  rw [List.getD_eq_getElem?_getD, List.getD_eq_getElem?_getD, getElem?_store, if_neg hn]

theorem getD_store_inside (size : Nat) (mem : Bytes) (ptr : Nat) (val : Bytes) (i : Nat)
    (hi : i < size) (h : ptr + size ≤ mem.length) :
    (store_out_of_order_atomic size mem ptr val).getD (ptr + i) 0 = val.getD i 0 := by
  have hp : ptr ≤ ptr + i ∧ ptr + i < ptr + size ∧ ptr + i < mem.length := by omega
  rw [List.getD_eq_getElem?_getD, getElem?_store, if_pos hp]
  simp

/-- Reading a member back after storing it. -/
theorem read_store_same (m : Member) (mem v : Bytes) (hm : m.offset + m.size ≤ mem.length)
    (hv : v.length = m.size) :
    read_out_of_order_atomic m.size (store_out_of_order_atomic m.size mem m.offset v) m.offset
      = v := by
  apply List.ext_getElem?
  intro i
  rw [getElem?_read]
  by_cases hi : i < m.size
  · rw [if_pos hi, getD_store_inside _ _ _ _ _ hi hm]
    have : i < v.length := by omega
    simp [List.getElem?_eq_getElem this]
  · rw [if_neg hi]
    exact (List.getElem?_eq_none (by omega)).symm

/-- Reading a member after a store to a disjoint member. -/
theorem read_store_disjoint (m k : Member) (mem v : Bytes) (hd : m.disjoint k) :
    read_out_of_order_atomic k.size (store_out_of_order_atomic m.size mem m.offset v) k.offset
      = read_out_of_order_atomic k.size mem k.offset := by
  apply List.ext_getElem?
  intro i
  rw [getElem?_read, getElem?_read]
  by_cases hi : i < k.size
  · rw [if_pos hi, if_pos hi, getD_store_outside]
    unfold Member.disjoint at hd
    omega
  · rw [if_neg hi, if_neg hi]

end internal

theorem Writer.write_member_some (h : Writer) (p : Nat) (hp : h.parent = some p) (heap : Heap)
    (m : Member) (v : Bytes) :
    h.write_member heap m v = some (heap.set p { heap p with
      val := internal.store_out_of_order_atomic m.size (heap p).val m.offset v }) := by
  simp [Writer.write_member, hp]

theorem Writer.read_member_some (h : Writer) (p : Nat) (hp : h.parent = some p) (heap : Heap)
    (m : Member) :
    h.read_member heap m
      = some (internal.read_out_of_order_atomic m.size (heap p).val m.offset) := by
  simp [Writer.read_member, hp]

theorem Writer.write_some (h : Writer) (p : Nat) (hp : h.parent = some p) (heap : Heap)
    (v : Bytes) :
    h.write heap v = some (heap.set p { heap p with
      val := internal.store_out_of_order_atomic (heap p).val.length (heap p).val 0 v }) := by
  simp [Writer.write, hp]

/-- C9.  For a member `m` inside `T` and a value `v` of its type,
`write_member(m, v)` through a handle whose parent is the lock at `p` sets the
bytes at positions `m.offset .. m.offset + m.size - 1` of the stored value to
the bytes of `v` and changes nothing else: every other byte of the stored
value, its size, the counter and the store count of the lock, and every other
lock are as before, so every member disjoint from `m` reads the same before
and after. -/
theorem write_member_frame (h : Writer) (p : Nat) (heap : Heap) (m : Member) (v : Bytes)
    (hp : h.parent = some p) (hm : m.offset + m.size ≤ (heap p).val.length)
    (hv : v.length = m.size) :
    ∃ heap1,
      h.write_member heap m v = some heap1 ∧
      (heap1 p).val.length = (heap p).val.length ∧
      (∀ i, i < m.size → (heap1 p).val[m.offset + i]? = v[i]?) ∧
      (∀ j, (j < m.offset ∨ m.offset + m.size ≤ j) → (heap1 p).val[j]? = (heap p).val[j]?) ∧
      m.of (heap1 p).val = v ∧
      (heap1 p).seq = (heap p).seq ∧ (heap1 p).stores = (heap p).stores ∧
      (∀ q, q ≠ p → heap1 q = heap q) ∧
      (∀ k : Member, m.disjoint k →
        k.of (heap1 p).val = k.of (heap p).val ∧
        h.read_member heap1 k = h.read_member heap k) := by
  refine ⟨_, Writer.write_member_some h p hp heap m v, ?_, ?_, ?_, ?_, ?_, ?_, ?_, ?_⟩
  · rw [Heap.set_self]; exact internal.length_store _ _ _ _
  · intro i hi
    rw [Heap.set_self]
    have hpos : m.offset ≤ m.offset + i ∧ m.offset + i < m.offset + m.size ∧
        m.offset + i < (heap p).val.length := by omega
    have hiv : i < v.length := by omega
    simp only [internal.getElem?_store, if_pos hpos]
    simp [List.getElem?_eq_getElem hiv]
  · intro j hj
    rw [Heap.set_self]
    have hn : ¬ (m.offset ≤ j ∧ j < m.offset + m.size ∧ j < (heap p).val.length) := by omega
    simp only [internal.getElem?_store, if_neg hn]
  · rw [Heap.set_self]
    have hlen := internal.length_store m.size (heap p).val m.offset v
    rw [← internal.read_eq_of m _ (by dsimp only; omega)]
    exact internal.read_store_same m _ v hm hv
  · rw [Heap.set_self]
  · rw [Heap.set_self]
  · intro q hq
    rw [Heap.set_ne _ _ hq]
  · intro k hk
    constructor
    · rw [Heap.set_self]
      apply List.ext_getElem?
      intro i
      simp only [Member.of, List.getElem?_take, List.getElem?_drop]
      by_cases hi : i < k.size
      · have hn : ¬ (m.offset ≤ k.offset + i ∧ k.offset + i < m.offset + m.size ∧
            k.offset + i < (heap p).val.length) := by
          unfold Member.disjoint at hk
          omega
        simp only [if_pos hi, internal.getElem?_store, if_neg hn]
      · simp only [if_neg hi]
    · rw [Writer.read_member_some h p hp, Writer.read_member_some h p hp, Heap.set_self]
      exact congrArg some (internal.read_store_disjoint m k _ v hk)

theorem write_member_frame_witness :
    ∃ heap1,
      Writer.write_member ⟨some 0, 6⟩ (fun _ => ⟨List.replicate 24 5, 7, 3⟩) ⟨4, 4⟩ [3, 0, 0, 0]
        = some heap1 ∧
      (heap1 0).val.length = (List.replicate 24 (5 : Byte)).length ∧
      (∀ i, i < 4 → (heap1 0).val[4 + i]? = ([3, 0, 0, 0] : Bytes)[i]?) ∧
      (∀ j, (j < 4 ∨ 4 + 4 ≤ j) → (heap1 0).val[j]? = (List.replicate 24 (5 : Byte))[j]?) ∧
      (⟨4, 4⟩ : Member).of (heap1 0).val = [3, 0, 0, 0] ∧
      (heap1 0).seq = 7 ∧ (heap1 0).stores = 3 ∧
      (∀ q, q ≠ 0 → heap1 q = (⟨List.replicate 24 5, 7, 3⟩ : SeqLock)) ∧
      (∀ k : Member, (⟨4, 4⟩ : Member).disjoint k →
        k.of (heap1 0).val = k.of (List.replicate 24 5) ∧
        Writer.read_member ⟨some 0, 6⟩ heap1 k
          = Writer.read_member ⟨some 0, 6⟩ (fun _ => ⟨List.replicate 24 5, 7, 3⟩) k) :=
  write_member_frame ⟨some 0, 6⟩ 0 (fun _ => ⟨List.replicate 24 5, 7, 3⟩) ⟨4, 4⟩ [3, 0, 0, 0]
    rfl (by decide) (by decide)


/-! ### Progress of readers (C10) -/

/-- The byte loads of a pass, made one after the other. -/
theorem run_body_ticks (w : Nat) (t : Nat) (ps : List Nat) (np nc seq1 : Nat) (todo : List Nat)
    (buf : Bytes) (c1 : Nat) (s : Sys) (sp : Bool)
    (ht : s.threads t = Thread.rdBody ps np nc seq1 todo buf c1) :
    run w s (List.replicate todo.length ⟨t, Action.tick sp⟩) =
      s.setThread t
        (Thread.rdBody ps np nc seq1 [] (buf ++ todo.map (fun p => s.lock.val.getD p 0)) c1) := by
  induction todo generalizing s buf with
  | nil =>
    simp only [List.length_nil, List.replicate_zero, run_nil, List.map_nil, List.append_nil]
    exact (Sys.setThread_same s t _ ht).symm
  | cons p todo ih =>
    simp only [List.length_cons, List.replicate_succ, run_cons, List.map_cons]
    have hstep : step w s ⟨t, Action.tick sp⟩ =
        s.setThread t (Thread.rdBody ps np nc seq1 todo (buf ++ [s.lock.val.getD p 0]) c1) := by
      simp [step, ht]
    rw [hstep, ih _ _ (Sys.setThread_threads_self _ _ _)]
    simp only [Sys.setThread, List.append_assoc, List.singleton_append, if_nest]

/-- The call `load()` made alone by thread `t` from a state with an even
counter ends where the sequential `load` says: one pass, no policy call, the
stored value; the lock is untouched. -/
theorem run_loadEvents (w : Nat) (s : Sys) (t : Nat) (heap : Heap) (this : Nat)
    (hs : heap this = s.lock) (ht : s.threads t = Thread.idle) (hev : s.lock.seq % 2 = 0) :
    ∃ r, SeqLock.load heap this 1 = some r ∧
      (run w s (loadEvents t s.lock.val.length)).threads t =
        Thread.rdDone (List.range s.lock.val.length) r.passes r.conflicts r.value 0 ∧
      (run w s (loadEvents t s.lock.val.length)).lock = s.lock := by
  have hne : ¬ s.lock.seq % 2 = 1 := by omega
  refine ⟨_, load_even heap this 1 (by rw [hs]; exact hev) (by decide), ?_⟩
  have h1 : step w s ⟨t, Action.load⟩ =
      s.setThread t (Thread.rdSeq1 (List.range s.lock.val.length) 0 0) := by
    simp [step, ht]
  have h2 : step w (s.setThread t (Thread.rdSeq1 (List.range s.lock.val.length) 0 0))
      ⟨t, Action.tick false⟩ =
      s.setThread t (Thread.rdBody (List.range s.lock.val.length) 1 0 s.lock.seq
        (List.range s.lock.val.length) [] s.lock.stores) := by
    simp [step, Sys.setThread, hne, if_nest]
  have h3 := run_body_ticks w t (List.range s.lock.val.length) 1 0 s.lock.seq
    (List.range s.lock.val.length) [] s.lock.stores
    (s.setThread t (Thread.rdBody (List.range s.lock.val.length) 1 0 s.lock.seq
        (List.range s.lock.val.length) [] s.lock.stores)) false
    (Sys.setThread_threads_self _ _ _)
  rw [List.length_range] at h3
  unfold loadEvents
  rw [run_append, run_append]
  simp only [run_cons, run_nil, h1, h2, h3]
  rw [hs]
  have hm := map_getD_range s.lock.val
  simp only [List.getD_eq_getElem?_getD] at hm
  simp [step, Sys.setThread, hne, hm]

/-- The facade `write(new_val)` made alone by thread `t` from a state with an
even counter leaves the lock where the sequential `write` leaves it. -/
theorem run_writeEvents_eq_write (w : Nat) (s : Sys) (t : Nat) (heap : Heap)
    (this : Nat) (new_val : Bytes) (hs : heap this = s.lock) (ht : s.threads t = Thread.idle)
    (hev : s.lock.seq % 2 = 0) :
    ∃ heap3, SeqLock.write w heap this new_val 1 [] = some heap3 ∧
      (run w s (writeEvents t s.lock.val.length new_val)).lock = heap3 this := by
  obtain ⟨nc, hg⟩ := get_writer_loop_even w heap this (by rw [hs]; exact hev) [] 1 0 (by decide)
  have hg2 : SeqLock.get_writer w heap this 1 [] = _ := hg
  rw [run_writeEvents w s t new_val ht hev]
  unfold SeqLock.write
  rw [hg2]
  simp only [Writer.write, Option.map_some']
  refine ⟨_, rfl, ?_⟩
  simp only [Writer.dtor, Heap.set_self, hs]


/-! ### One pass of the reader loop (C11) -/

theorem wrap_add_wrap (w a b : Nat) : wrap w (wrap w a + b) = wrap w (a + b) := by
  unfold wrap
  exact Nat.mod_add_mod a (2 ^ w) b

/-- Back-to-back `write` calls of thread `u`, one per value of `vs`, from a
state with an even counter: the threads are where they were, the counter has
advanced by two per call in the counter type and every call is a commit. -/
theorem run_commits (w : Nat) (hw : 0 < w) (u n : Nat) (vs : List Bytes) (s : Sys)
    (hu : s.threads u = Thread.idle) (hev : s.lock.seq % 2 = 0) (hlt : s.lock.seq < 2 ^ w)
    (hn : s.lock.val.length = n) :
    (run w s (vs.flatMap (writeEvents u n))).threads = s.threads ∧
    (run w s (vs.flatMap (writeEvents u n))).lock.seq = wrap w (s.lock.seq + 2 * vs.length) ∧
    (run w s (vs.flatMap (writeEvents u n))).lock.stores = s.lock.stores + vs.length ∧
    (run w s (vs.flatMap (writeEvents u n))).lock.val.length = n := by
  induction vs generalizing s with
  | nil =>
    refine ⟨rfl, ?_, rfl, hn⟩
    show s.lock.seq = wrap w (s.lock.seq + 2 * 0)
    exact (Nat.mod_eq_of_lt hlt).symm
  | cons v vs ih =>
    have hwr := run_writeEvents w s u v hu hev
    rw [hn] at hwr
    simp only [List.flatMap_cons, run_append, hwr]
    obtain ⟨h1, h2, h3, h4⟩ := ih
      { lock := { val := internal.store_out_of_order_atomic n s.lock.val 0 v
                  seq := wrap w (s.lock.seq + 2)
                  stores := s.lock.stores + 1 }
        threads := s.threads
        hist := internal.store_out_of_order_atomic n s.lock.val 0 v :: s.hist } hu
      (by show wrap w (s.lock.seq + 2) % 2 = 0; rw [wrap_mod_two hw]; omega)
      (wrap_lt _ _)
      (by show (internal.store_out_of_order_atomic n s.lock.val 0 v).length = n
          rw [internal.length_store, hn])
    refine ⟨h1, ?_, ?_, h4⟩
    · rw [h2]
      show wrap w (wrap w (s.lock.seq + 2) + 2 * vs.length) = _
      rw [wrap_add_wrap]
      congr 1
      simp only [List.length_cons]
      omega
    · rw [h3]
      simp only [List.length_cons]
      omega

/-! ### Acquisition and release (C13) -/

theorem bounded_init (w : Nat) (v0 : Bytes) : Bounded w (Sys.init v0) := by
  refine ⟨?_, ?_⟩
  · show 0 < 2 ^ w
    positivity
  · intro t q h
    simp [Sys.init, Thread.base] at h

theorem bounded_setThread {w : Nat} {s : Sys} (h : Bounded w s) (t : Nat) (th : Thread)
    (hb : ∀ q, th.base = some q → q < 2 ^ w) : Bounded w (s.setThread t th) := by
  refine ⟨h.1, ?_⟩
  intro u q hq
  by_cases hu : u = t
  · subst hu
    simp only [Sys.setThread, if_true] at hq
    exact hb q hq
  · simp only [Sys.setThread, hu, if_false] at hq
    exact h.2 u q hq

theorem bounded_of_lock {w : Nat} {s : Sys} (h : Bounded w s) (lk : SeqLock)
    (hist : List Bytes) (hlk : lk.seq < 2 ^ w) :
    Bounded w { lock := lk, threads := s.threads, hist := hist } :=
  ⟨hlk, h.2⟩

/-- Every step keeps the counter and the commit bases inside the counter type. -/
theorem step_bounded (w : Nat) (s : Sys) (e : Event) (h : Bounded w s) :
    Bounded w (step w s e) := by
  have hb : ∀ q, (s.threads e.tid).base = some q → q < 2 ^ w := h.2 e.tid
  unfold step
  split
  all_goals try (rename_i ht _; rw [ht] at hb)
  all_goals try exact h
  all_goals try dsimp only
  all_goals try split
  all_goals try split
  all_goals try
    (refine bounded_setThread h _ _ ?_
     intro q hq
     simp [Thread.base] at hq <;>
     first
       | (subst hq; exact h.1)
       | (apply hb; simp [Thread.base, hq]; done))
  · rename_i cur x hcas
    obtain ⟨_, _, h3⟩ := compare_exchange_weak_true hcas
    refine bounded_setThread (bounded_of_lock h _ _ ?_) _ _ ?_
    · rw [h3]; exact wrap_lt _ _
    · intro q hq
      simp [Thread.base] at hq
      exact hb q (by simp [Thread.base, hq])
  · rename_i cur x hcas
    have h3 := compare_exchange_weak_false hcas
    refine bounded_setThread h _ _ ?_
    intro q hq
    simp [Thread.base] at hq
    rw [← hq, h3]
    exact h.1
  · exact bounded_setThread (bounded_of_lock h _ _ (wrap_lt _ _)) _ _
      (by intro q hq; simp [Thread.base] at hq)

theorem run_bounded (w : Nat) (s : Sys) (es : List Event) (h : Bounded w s) :
    Bounded w (run w s es) := by
  induction es generalizing s with
  | nil => exact h
  | cons e es ih => exact ih _ (step_bounded w s e h)

/-- A thread comes to own a handle by one step only: its compare-and-swap,
not failing spuriously, on a counter equal to the even `seq1` it expects. -/
theorem step_acquire (w : Nat) (s : Sys) (e : Event) (t : Nat)
    (hn : (s.threads t).isHold = false) (ha : ((step w s e).threads t).isHold = true) :
    ∃ q, e = ⟨t, Action.tick false⟩ ∧ s.threads t = Thread.wrCas q ∧ q % 2 = 0 ∧
      s.lock.seq = q ∧ (step w s e).lock.seq = wrap w (q + 1) ∧
      (step w s e).threads t = Thread.wrHold q [] := by
  by_cases hte : t = e.tid
  · obtain ⟨tid, act⟩ := e
    simp only at hte
    subst hte
    cases hth : s.threads t with
    | wrCas q =>
      cases act with
      | tick sp =>
        by_cases hodd : q % 2 = 1
        · exfalso
          revert ha
          simp [step, hth, hodd, Sys.setThread, Thread.isHold]
        · by_cases hc : s.lock.seq = q ∧ sp = false
          · obtain ⟨hc1, hc2⟩ := hc
            subst hc2
            refine ⟨q, rfl, rfl, by omega, hc1, ?_, ?_⟩ <;>
              simp [step, hth, hodd, compare_exchange_weak, hc1, Sys.setThread]
          · exfalso
            revert ha
            simp [step, hth, hodd, compare_exchange_weak, hc, Sys.setThread, Thread.isHold]
      | _ =>
        exfalso
        revert ha
        simp [step, hth, Thread.isHold]
    | wrHold q todo => rw [hth] at hn; simp [Thread.isHold] at hn
    | wrRead q todo buf => rw [hth] at hn; simp [Thread.isHold] at hn
    | rdSeq1 ps np nc =>
      exfalso
      revert ha
      by_cases hodd : s.lock.seq % 2 = 1 <;>
        cases act <;> simp [step, hth, hodd, Sys.setThread, Thread.isHold]
    | rdBody ps np nc seq1 todo buf c1 =>
      exfalso
      revert ha
      cases todo with
      | nil =>
        by_cases hc : seq1 % 2 = 1 ∨ seq1 ≠ s.lock.seq <;>
          cases act <;> simp [step, hth, hc, Sys.setThread, Thread.isHold]
      | cons p todo => cases act <;> simp [step, hth, Sys.setThread, Thread.isHold]
    | _ =>
      exfalso
      revert ha
      cases act <;> simp [step, hth, Sys.setThread, Thread.isHold]
  · rw [step_threads_ne w s e t hte, hn] at ha
    exact absurd ha (by decide)

/-- C13.  In every state reached from construction: a thread comes to own a
handle only by a compare-and-swap that succeeds on a counter equal to the even
`seq1` it expects, the counter becomes `seq1 + 1` and the handle stores that
`seq1` as its base; with an odd `seq1` the thread reloads and makes no
compare-and-swap; a failed compare-and-swap leaves the lock as it is and puts
the value found into `seq1`, and when that value is even the next
compare-and-swap takes it as the base.  While a thread owns the handle the
counter equals base + 1, so the release store of base + 2 raises the counter
by one in the counter type and makes it even. -/
theorem get_writer_acquires_from_even (w : Nat) (hw : 0 < w) (v0 : Bytes) (es : List Event)
    (e : Event) (t : Nat) (sp : Bool) :
    (((run w (Sys.init v0) es).threads t).isHold = false →
      ((step w (run w (Sys.init v0) es) e).threads t).isHold = true →
      ∃ q, e = ⟨t, Action.tick false⟩ ∧ (run w (Sys.init v0) es).threads t = Thread.wrCas q ∧
        q % 2 = 0 ∧ (run w (Sys.init v0) es).lock.seq = q ∧
        (step w (run w (Sys.init v0) es) e).lock.seq = q + 1 ∧
        (step w (run w (Sys.init v0) es) e).threads t = Thread.wrHold q []) ∧
    (∀ q, (run w (Sys.init v0) es).threads t = Thread.wrCas q → q % 2 = 1 →
      (step w (run w (Sys.init v0) es) ⟨t, Action.tick sp⟩).threads t
        = Thread.wrCas (run w (Sys.init v0) es).lock.seq ∧
      (step w (run w (Sys.init v0) es) ⟨t, Action.tick sp⟩).lock
        = (run w (Sys.init v0) es).lock) ∧
    (∀ q, (run w (Sys.init v0) es).threads t = Thread.wrCas q → q % 2 = 0 →
      ((run w (Sys.init v0) es).lock.seq ≠ q ∨ sp = true) →
      (step w (run w (Sys.init v0) es) ⟨t, Action.tick sp⟩).threads t
        = Thread.wrCas (run w (Sys.init v0) es).lock.seq ∧
      (step w (run w (Sys.init v0) es) ⟨t, Action.tick sp⟩).lock
        = (run w (Sys.init v0) es).lock ∧
      ((run w (Sys.init v0) es).lock.seq % 2 = 0 →
        (run w (run w (Sys.init v0) es) [⟨t, Action.tick sp⟩, ⟨t, Action.tick false⟩]).threads t
          = Thread.wrHold (run w (Sys.init v0) es).lock.seq [] ∧
        (run w (run w (Sys.init v0) es) [⟨t, Action.tick sp⟩, ⟨t, Action.tick false⟩]).lock.seq
          = (run w (Sys.init v0) es).lock.seq + 1)) ∧
    (∀ q, ((run w (Sys.init v0) es).threads t).isHold = true →
      ((run w (Sys.init v0) es).threads t).base = some q →
      (run w (Sys.init v0) es).lock.seq = q + 1 ∧ q % 2 = 0) ∧
    (∀ q, (run w (Sys.init v0) es).threads t = Thread.wrHold q [] →
      (step w (run w (Sys.init v0) es) ⟨t, Action.release⟩).lock.seq = wrap w (q + 2) ∧
      (step w (run w (Sys.init v0) es) ⟨t, Action.release⟩).lock.seq
        = wrap w ((run w (Sys.init v0) es).lock.seq + 1) ∧
      (step w (run w (Sys.init v0) es) ⟨t, Action.release⟩).lock.seq % 2 = 0 ∧
      (q + 2 < 2 ^ w →
        (step w (run w (Sys.init v0) es) ⟨t, Action.release⟩).lock.seq
          = (run w (Sys.init v0) es).lock.seq + 1) ∧
      (step w (run w (Sys.init v0) es) ⟨t, Action.release⟩).threads t = Thread.idle) := by
  have hinv := run_inv hw (Sys.init v0) es (inv_init w v0)
  have hbd := run_bounded w (Sys.init v0) es (bounded_init w v0)
  generalize run w (Sys.init v0) es = s at hinv hbd
  have hheld : ∀ q, (s.threads t).isHold = true → (s.threads t).base = some q →
      s.lock.seq = q + 1 ∧ q % 2 = 0 := by
    intro q hh hb
    have hq := hbd.2 t q hb
    have hok := hinv.ok t
    cases hth : s.threads t <;> rw [hth] at hh hb hok <;> simp [Thread.isHold] at hh <;>
      simp only [Thread.base, Option.some.injEq] at hb <;> subst hb <;>
      exact ⟨by rw [hok.1]; exact wrap_succ_of_even hw hok.2 hq, hok.2⟩
  refine ⟨?_, ?_, ?_, hheld, ?_⟩
  · intro hn ha
    obtain ⟨q, h1, h2, h3, h4, h5, h6⟩ := step_acquire w s e t hn ha
    refine ⟨q, h1, h2, h3, h4, ?_, h6⟩
    rw [h5]
    exact wrap_succ_of_even hw h3 (by rw [← h4]; exact hbd.1)
  · intro q hth hodd
    constructor <;> simp [step, hth, hodd, Sys.setThread]
  · intro q hth hev hc
    have hne : ¬ q % 2 = 1 := by omega
    have hc2 : ¬ (s.lock.seq = q ∧ sp = false) := by
      rintro ⟨h1, h2⟩
      rcases hc with h | h
      · exact h h1
      · rw [h2] at h
        exact absurd h (by decide)
    have hst : step w s ⟨t, Action.tick sp⟩ = s.setThread t (Thread.wrCas s.lock.seq) := by
      simp [step, hth, hne, compare_exchange_weak, hc2]
    refine ⟨by rw [hst]; exact Sys.setThread_threads_self _ _ _, by rw [hst]; rfl, ?_⟩
    intro hev2
    have hne2 : ¬ s.lock.seq % 2 = 1 := by omega
    rw [run_cons, run_cons, run_nil, hst]
    constructor
    · simp [step, Sys.setThread, hne2, compare_exchange_weak]
    · simp [step, Sys.setThread, hne2, compare_exchange_weak]
      exact wrap_succ_of_even hw hev2 hbd.1
  · intro q hth
    obtain ⟨h1, h2⟩ := hheld q (by rw [hth]; rfl) (by rw [hth]; rfl)
    have hs : (step w s ⟨t, Action.release⟩).lock.seq = wrap w (q + 2) := by
      simp [step, hth, Sys.setThread]
    refine ⟨hs, by rw [hs, h1], ?_, ?_, by simp [step, hth, Sys.setThread]⟩
    · rw [hs, wrap_mod_two hw]; omega
    · intro hlt
      rw [hs, h1]
      exact Nat.mod_eq_of_lt hlt

/-- Thread 0 loads the counter 0; thread 1 makes a complete `write`; the
compare-and-swap of thread 0 from 0 fails and hands it the counter 2, from
which its next compare-and-swap succeeds: the base of the handle is 2. -/
theorem get_writer_acquires_from_even_witness :
    0 < 8 ∧
    (run 8 (Sys.init [7, 9])
      ([⟨0, Action.get_writer⟩, ⟨0, Action.tick false⟩] ++ writeEvents 1 2 [3, 4])).threads 0
      = Thread.wrCas 0 ∧
    (run 8 (run 8 (Sys.init [7, 9])
      ([⟨0, Action.get_writer⟩, ⟨0, Action.tick false⟩] ++ writeEvents 1 2 [3, 4]))
      [⟨0, Action.tick false⟩, ⟨0, Action.tick false⟩]).threads 0 = Thread.wrHold 2 [] ∧
    (∀ q, (run 8 (Sys.init [7, 9])
        ([⟨0, Action.get_writer⟩, ⟨0, Action.tick false⟩] ++ writeEvents 1 2 [3, 4])).threads 0
        = Thread.wrCas q → q % 2 = 0 →
      ((run 8 (Sys.init [7, 9])
        ([⟨0, Action.get_writer⟩, ⟨0, Action.tick false⟩] ++ writeEvents 1 2 [3, 4])).lock.seq ≠ q
        ∨ false = true) →
      (step 8 (run 8 (Sys.init [7, 9])
        ([⟨0, Action.get_writer⟩, ⟨0, Action.tick false⟩] ++ writeEvents 1 2 [3, 4]))
        ⟨0, Action.tick false⟩).threads 0
        = Thread.wrCas (run 8 (Sys.init [7, 9])
          ([⟨0, Action.get_writer⟩, ⟨0, Action.tick false⟩] ++ writeEvents 1 2 [3, 4])).lock.seq ∧
      (step 8 (run 8 (Sys.init [7, 9])
        ([⟨0, Action.get_writer⟩, ⟨0, Action.tick false⟩] ++ writeEvents 1 2 [3, 4]))
        ⟨0, Action.tick false⟩).lock
        = (run 8 (Sys.init [7, 9])
          ([⟨0, Action.get_writer⟩, ⟨0, Action.tick false⟩] ++ writeEvents 1 2 [3, 4])).lock ∧
      ((run 8 (Sys.init [7, 9])
        ([⟨0, Action.get_writer⟩, ⟨0, Action.tick false⟩] ++ writeEvents 1 2 [3, 4])).lock.seq % 2
          = 0 →
        (run 8 (run 8 (Sys.init [7, 9])
          ([⟨0, Action.get_writer⟩, ⟨0, Action.tick false⟩] ++ writeEvents 1 2 [3, 4]))
          [⟨0, Action.tick false⟩, ⟨0, Action.tick false⟩]).threads 0
          = Thread.wrHold (run 8 (Sys.init [7, 9])
            ([⟨0, Action.get_writer⟩, ⟨0, Action.tick false⟩] ++ writeEvents 1 2 [3, 4])).lock.seq
            [] ∧
        (run 8 (run 8 (Sys.init [7, 9])
          ([⟨0, Action.get_writer⟩, ⟨0, Action.tick false⟩] ++ writeEvents 1 2 [3, 4]))
          [⟨0, Action.tick false⟩, ⟨0, Action.tick false⟩]).lock.seq
          = (run 8 (Sys.init [7, 9])
            ([⟨0, Action.get_writer⟩, ⟨0, Action.tick false⟩] ++ writeEvents 1 2 [3, 4])).lock.seq
            + 1)) :=
  ⟨by decide, by decide, by decide,
    (get_writer_acquires_from_even 8 (by decide) [7, 9]
      ([⟨0, Action.get_writer⟩, ⟨0, Action.tick false⟩] ++ writeEvents 1 2 [3, 4])
      ⟨0, Action.tick false⟩ 0 false).2.2.1⟩


/-! ### The byte transfer functions copy `sizeof(T)` bytes (C14) -/

theorem internal.length_read (size : Nat) (mem : Bytes) (ptr : Nat) :
    (internal.read_out_of_order_atomic size mem ptr).length = size := by
  have key : ∀ (k : Nat) (res : Bytes),
      ((List.range k).foldl (fun res i => res.set i (mem.getD (ptr + i) 0)) res).length
        = res.length := by
    intro k
    induction k with
    | zero => intro res; rfl
    | succ n ih =>
      intro res
      simp only [List.range_succ, List.foldl_append, List.foldl_cons, List.foldl_nil,
        List.length_set, ih]
  unfold internal.read_out_of_order_atomic
  rw [key, List.length_replicate]

/-- C14.  For an object of `size` bytes at position `ptr` of the storage `mem`
and a value `v` of `size` bytes: `read_out_of_order_atomic` returns `size`
bytes, byte `i` being byte `i` of the object; `store_out_of_order_atomic` keeps
the size of the storage, sets byte `i` of the object to byte `i` of `v` for
every `i < size` and changes no byte outside the object; and reading after
storing `v` returns `v`. -/
theorem byte_transfer_copies_size_bytes (size : Nat) (mem : Bytes) (ptr : Nat) (v : Bytes)
    (hin : ptr + size ≤ mem.length) (hv : v.length = size) :
    (internal.read_out_of_order_atomic size mem ptr).length = size ∧
    (∀ i, i < size → (internal.read_out_of_order_atomic size mem ptr)[i]? = mem[ptr + i]?) ∧
    (internal.store_out_of_order_atomic size mem ptr v).length = mem.length ∧
    (∀ i, i < size → (internal.store_out_of_order_atomic size mem ptr v)[ptr + i]? = v[i]?) ∧
    (∀ j, (j < ptr ∨ ptr + size ≤ j) →
      (internal.store_out_of_order_atomic size mem ptr v)[j]? = mem[j]?) ∧
    internal.read_out_of_order_atomic size (internal.store_out_of_order_atomic size mem ptr v) ptr
      = v := by
  refine ⟨internal.length_read size mem ptr, ?_, internal.length_store size mem ptr v, ?_, ?_,
    internal.read_store_same ⟨ptr, size⟩ mem v hin hv⟩
  · intro i hi
    have hlt : ptr + i < mem.length := by omega
    rw [internal.getElem?_read, if_pos hi, List.getD_eq_getElem?_getD,
      List.getElem?_eq_getElem hlt]
    rfl
  · intro i hi
    have hpos : ptr ≤ ptr + i ∧ ptr + i < ptr + size ∧ ptr + i < mem.length := by omega
    have hiv : i < v.length := by omega
    rw [internal.getElem?_store, if_pos hpos, Nat.add_sub_cancel_left,
      List.getD_eq_getElem?_getD, List.getElem?_eq_getElem hiv]
    rfl
  · intro j hj
    have hn : ¬ (ptr ≤ j ∧ j < ptr + size ∧ j < mem.length) := by omega
    rw [internal.getElem?_store, if_neg hn]

theorem byte_transfer_copies_size_bytes_witness :
    (internal.read_out_of_order_atomic 4 ((List.range 24).map (fun i => (Fin.ofNat i : Byte))) 8)
      = [8, 9, 10, 11] ∧
    (internal.read_out_of_order_atomic 4
        ((List.range 24).map (fun i => (Fin.ofNat i : Byte))) 8).length = 4 ∧
    (∀ i, i < 4 →
      (internal.read_out_of_order_atomic 4
        ((List.range 24).map (fun i => (Fin.ofNat i : Byte))) 8)[i]?
        = ((List.range 24).map (fun i => (Fin.ofNat i : Byte)))[8 + i]?) ∧
    (internal.store_out_of_order_atomic 4
        ((List.range 24).map (fun i => (Fin.ofNat i : Byte))) 8 [3, 0, 0, 7]).length
      = ((List.range 24).map (fun i => (Fin.ofNat i : Byte))).length ∧
    (∀ i, i < 4 →
      (internal.store_out_of_order_atomic 4
        ((List.range 24).map (fun i => (Fin.ofNat i : Byte))) 8 [3, 0, 0, 7])[8 + i]?
        = ([3, 0, 0, 7] : Bytes)[i]?) ∧
    (∀ j, (j < 8 ∨ 8 + 4 ≤ j) →
      (internal.store_out_of_order_atomic 4
        ((List.range 24).map (fun i => (Fin.ofNat i : Byte))) 8 [3, 0, 0, 7])[j]?
        = ((List.range 24).map (fun i => (Fin.ofNat i : Byte)))[j]?) ∧
    internal.read_out_of_order_atomic 4 (internal.store_out_of_order_atomic 4
        ((List.range 24).map (fun i => (Fin.ofNat i : Byte))) 8 [3, 0, 0, 7]) 8
      = [3, 0, 0, 7] :=
  ⟨by decide, byte_transfer_copies_size_bytes 4
    ((List.range 24).map (fun i => (Fin.ofNat i : Byte))) 8 [3, 0, 0, 7] (by decide) (by decide)⟩


/-! ### What readers and data operations leave unchanged (C15) -/

/-- A schedule in which no writer takes a step leaves the lock and the
committed values as they are. -/
theorem run_lock_of_writerFree (w : Nat) (es : List Event) (s : Sys)
    (hq : writerFree w s es = true) :
    (run w s es).lock = s.lock ∧ (run w s es).hist = s.hist := by
  induction es generalizing s with
  | nil => exact ⟨rfl, rfl⟩
  | cons e es ih =>
    simp only [writerFree, Bool.and_eq_true, Bool.not_eq_true', decide_eq_true_eq] at hq
    obtain ⟨⟨hnw, _⟩, hq2⟩ := hq
    obtain ⟨h1, h2⟩ := step_lock_of_not_writer w s e hnw
    obtain ⟨h3, h4⟩ := ih (step w s e) hq2
    exact ⟨by rw [run_cons, h3, h1], by rw [run_cons, h4, h2]⟩

/-- A step changes the counter only if it is a compare-and-swap of
`get_writer` on the even value it expects, or the release store of a handle;
it changes the stored bytes only if it is a byte store of the thread that owns
the handle. -/
theorem step_changes_only (w : Nat) (s : Sys) (e : Event) :
    ((step w s e).lock.seq ≠ s.lock.seq →
      (∃ q, s.threads e.tid = Thread.wrCas q ∧ e.act = Action.tick false ∧ q % 2 = 0 ∧
        s.lock.seq = q) ∨
      (∃ q, s.threads e.tid = Thread.wrHold q [] ∧ e.act = Action.release)) ∧
    ((step w s e).lock.val ≠ s.lock.val →
      ∃ q pb todo sp, s.threads e.tid = Thread.wrHold q (pb :: todo) ∧ e.act = Action.tick sp) ∧
    ((step w s e).lock.stores ≠ s.lock.stores →
      ∃ q, s.threads e.tid = Thread.wrHold q [] ∧ e.act = Action.release) := by
  by_cases hw : (s.threads e.tid).isWriter = false
  · have h := (step_lock_of_not_writer w s e hw).1
    rw [h]
    exact ⟨fun hc => absurd rfl hc, fun hc => absurd rfl hc, fun hc => absurd rfl hc⟩
  · obtain ⟨tid, act⟩ := e
    simp only at hw ⊢
    cases hth : s.threads tid with
    | wrLoad =>
      refine ⟨fun hc => ?_, fun hc => ?_, fun hc => ?_⟩ <;> exfalso <;> revert hc <;>
        cases act <;> simp [step, hth, Sys.setThread]
    | wrCas q =>
      by_cases hodd : q % 2 = 1
      · refine ⟨fun hc => ?_, fun hc => ?_, fun hc => ?_⟩ <;> exfalso <;> revert hc <;>
          cases act <;> simp [step, hth, hodd, Sys.setThread]
      · cases act with
        | tick sp =>
          by_cases hc : s.lock.seq = q ∧ sp = false
          · obtain ⟨hc1, hc2⟩ := hc
            subst hc2
            refine ⟨fun _ => Or.inl ⟨q, rfl, rfl, by omega, hc1⟩, fun hc => ?_, fun hc => ?_⟩ <;>
              exfalso <;> revert hc <;>
              simp [step, hth, hodd, compare_exchange_weak, hc1, Sys.setThread]
          · refine ⟨fun hc2 => ?_, fun hc2 => ?_, fun hc2 => ?_⟩ <;> exfalso <;> revert hc2 <;>
              simp [step, hth, hodd, compare_exchange_weak, hc, Sys.setThread]
        | _ =>
          refine ⟨fun hc => ?_, fun hc => ?_, fun hc => ?_⟩ <;> exfalso <;> revert hc <;>
            simp [step, hth]
    | wrHold q todo =>
      cases todo with
      | nil =>
        cases act with
        | release =>
          exact ⟨fun _ => Or.inr ⟨q, rfl, rfl⟩,
            fun hc => absurd (by simp [step, hth, Sys.setThread]) hc, fun _ => ⟨q, rfl, rfl⟩⟩
        | _ =>
          refine ⟨fun hc => ?_, fun hc => ?_, fun hc => ?_⟩ <;> exfalso <;> revert hc <;>
            simp [step, hth, Sys.setThread]
      | cons pb todo =>
        cases act with
        | tick sp =>
          exact ⟨fun hc => absurd (by simp [step, hth, Sys.setThread]) hc,
            fun _ => ⟨q, pb, todo, sp, rfl, rfl⟩,
            fun hc => absurd (by simp [step, hth, Sys.setThread]) hc⟩
        | _ =>
          refine ⟨fun hc => ?_, fun hc => ?_, fun hc => ?_⟩ <;> exfalso <;> revert hc <;>
            simp [step, hth]
    | wrRead q todo buf =>
      cases todo with
      | nil =>
        refine ⟨fun hc => ?_, fun hc => ?_, fun hc => ?_⟩ <;> exfalso <;> revert hc <;>
          cases act <;> simp [step, hth, Sys.setThread]
      | cons p todo =>
        refine ⟨fun hc => ?_, fun hc => ?_, fun hc => ?_⟩ <;> exfalso <;> revert hc <;>
          cases act <;> simp [step, hth, Sys.setThread]
    | _ => rw [hth] at hw; simp [Thread.isWriter] at hw

/-- C15.  Readers never modify the lock and a handle's data operations never
touch the counter.  Every step of a thread that is neither inside `get_writer`
nor owns a handle (so every step of `load()` and `load_members()`, retries
included) leaves the counter, every byte of the stored value and the commit
count as they are, and so does every schedule of such steps.  Every step of a
thread that owns a handle, other than the release, (the steps of
`Writer::read_member`, `Writer::write_member` and `Writer::write`) leaves the
counter as it is.  The counter changes only at the compare-and-swap of
`get_writer` and at the release store of the destructor; the stored bytes
change only at a byte store of the owner.  In the sequential view
`write_member` and `write` leave the counter of every lock as it is. -/
theorem readers_and_data_ops_leave_counter (w : Nat) (s : Sys) (e : Event) (es : List Event)
    (h : Writer) (heap : Heap) (m : Member) (v : Bytes) :
    ((s.threads e.tid).isWriter = false →
      (step w s e).lock = s.lock ∧ (step w s e).hist = s.hist) ∧
    (writerFree w s es = true → (run w s es).lock = s.lock ∧ (run w s es).hist = s.hist) ∧
    ((s.threads e.tid).isHold = true → e.act ≠ Action.release →
      (step w s e).lock.seq = s.lock.seq ∧ (step w s e).lock.stores = s.lock.stores) ∧
    ((step w s e).lock.seq ≠ s.lock.seq →
      (∃ q, s.threads e.tid = Thread.wrCas q ∧ e.act = Action.tick false ∧ q % 2 = 0 ∧
        s.lock.seq = q) ∨
      (∃ q, s.threads e.tid = Thread.wrHold q [] ∧ e.act = Action.release)) ∧
    ((step w s e).lock.val ≠ s.lock.val →
      ∃ q pb todo sp, s.threads e.tid = Thread.wrHold q (pb :: todo) ∧ e.act = Action.tick sp) ∧
    (∀ heap1 q, h.write_member heap m v = some heap1 →
      (heap1 q).seq = (heap q).seq ∧ (heap1 q).stores = (heap q).stores) ∧
    (∀ heap1 q, h.write heap v = some heap1 →
      (heap1 q).seq = (heap q).seq ∧ (heap1 q).stores = (heap q).stores) := by
  obtain ⟨c1, c2, c3⟩ := step_changes_only w s e
  refine ⟨step_lock_of_not_writer w s e, run_lock_of_writerFree w es s, ?_, c1, c2, ?_, ?_⟩
  · intro hh hrel
    constructor
    · by_contra hc
      rcases c1 hc with ⟨q, hq, _⟩ | ⟨q, _, hq⟩
      · rw [hq] at hh
        simp [Thread.isHold] at hh
      · exact hrel hq
    · by_contra hc
      obtain ⟨q, _, hq⟩ := c3 hc
      exact hrel hq
  · intro heap1 q hwm
    cases hp : h.parent with
    | none => simp [Writer.write_member, hp] at hwm
    | some p =>
      rw [Writer.write_member_some h p hp] at hwm
      simp only [Option.some.injEq] at hwm
      subst hwm
      by_cases hq : q = p
      · subst hq; rw [Heap.set_self]; exact ⟨rfl, rfl⟩
      · rw [Heap.set_ne _ _ hq]; exact ⟨rfl, rfl⟩
  · intro heap1 q hwm
    cases hp : h.parent with
    | none => simp [Writer.write, hp] at hwm
    | some p =>
      rw [Writer.write_some h p hp] at hwm
      simp only [Option.some.injEq] at hwm
      subst hwm
      by_cases hq : q = p
      · subst hq; rw [Heap.set_self]; exact ⟨rfl, rfl⟩
      · rw [Heap.set_ne _ _ hq]; exact ⟨rfl, rfl⟩


/-! ### The two views agree on `read_member` -/

/-- The byte loads of a `read_member` in progress, made one after the other. -/
theorem run_read_ticks (w : Nat) (t q : Nat) (todo : List Nat) (buf : Bytes) (s : Sys)
    (sp : Bool) (ht : s.threads t = Thread.wrRead q todo buf) :
    run w s (List.replicate todo.length ⟨t, Action.tick sp⟩) =
      s.setThread t (Thread.wrRead q [] (buf ++ todo.map (fun p => s.lock.val.getD p 0))) := by
  induction todo generalizing s buf with
  | nil =>
    simp only [List.length_nil, List.replicate_zero, run_nil, List.map_nil, List.append_nil]
    exact (Sys.setThread_same s t _ ht).symm
  | cons p todo ih =>
    simp only [List.length_cons, List.replicate_succ, run_cons, List.map_cons]
    have hstep : step w s ⟨t, Action.tick sp⟩ =
        s.setThread t (Thread.wrRead q todo (buf ++ [s.lock.val.getD p 0])) := by
      simp [step, ht]
    rw [hstep, ih _ _ (Sys.setThread_threads_self _ _ _)]
    simp only [Sys.setThread, List.append_assoc, List.singleton_append, if_nest]

/-- The call `read_member(m)` made by the thread that owns the handle ends
with the value the sequential `read_member` returns; the lock is untouched. -/
theorem run_read_member (w : Nat) (s : Sys) (t q : Nat) (m : Member) (heap : Heap) (p : Nat)
    (hs : heap p = s.lock) (ht : s.threads t = Thread.wrHold q [])
    (hm : m.offset + m.size ≤ s.lock.val.length) :
    ∃ r, Writer.read_member ⟨some p, q⟩ heap m = some r ∧
      (run w s (⟨t, Action.read_member m⟩ ::
        List.replicate m.size ⟨t, Action.tick false⟩)).threads t = Thread.wrRead q [] r ∧
      (run w s (⟨t, Action.read_member m⟩ ::
        List.replicate m.size ⟨t, Action.tick false⟩)).lock = s.lock := by
  refine ⟨_, Writer.read_member_some _ p rfl heap m, ?_⟩
  have h1 : step w s ⟨t, Action.read_member m⟩ =
      s.setThread t (Thread.wrRead q m.positions []) := by
    simp [step, ht]
  have h2 := run_read_ticks w t q m.positions []
    (s.setThread t (Thread.wrRead q m.positions [])) false (Sys.setThread_threads_self _ _ _)
  have hlen : m.positions.length = m.size := by simp [Member.positions]
  rw [hlen] at h2
  rw [run_cons, h1, h2, hs, internal.read_eq_of m _ hm, ← map_getD_positions m _ hm]
  constructor
  · simp [Sys.setThread]
  · rfl


/-! ### Counter wraparound and the second counter load (C12) -/

theorem newestValue_append {α : Type} (d : α) (hist : List (Msg α)) (m : Msg α) :
    newestValue d (hist ++ [m]) = m.value := by
  simp [newestValue]

theorem atomic_load_newest {α : Type} (d : α) (order : MemoryOrder) (x : Loc)
    (hist : List (Msg α)) (ts : Nat) (tv : TView)
    (h : readableNewest hist ts (tv.cur x) = true) :
    ∃ tv2, atomic_load order x hist ts tv = some (newestValue d hist, tv2) := by
  simp only [readableNewest, Bool.and_eq_true, decide_eq_true_eq] at h
  obtain ⟨h1, h2⟩ := h
  have hlt : ts < hist.length := by omega
  have hlast : hist.getLast? = some hist[ts] := by
    rw [List.getLast?_eq_getElem?]
    have : hist.length - 1 = ts := by omega
    rw [this, List.getElem?_eq_getElem hlt]
  unfold atomic_load newestValue
  rw [List.getElem?_eq_getElem hlt, hlast]
  simp only [h2, if_true]
  exact ⟨_, rfl⟩

theorem getD_map_newestValue (val : List (List (Msg Byte))) (p : Nat) :
    (val.map (newestValue 0)).getD p 0 = newestValue 0 (val.getD p []) := by
  by_cases hp : p < val.length
  · simp [List.getD_eq_getElem?_getD, List.getElem?_eq_getElem hp]
  · have h1 : val[p]? = none := List.getElem?_eq_none (by omega)
    simp [List.getD_eq_getElem?_getD, h1, newestValue]

/-- One step of the view machine whose load reads the newest store is the step
of the sequentially consistent machine. -/
theorem vstep_newest (w : Nat) (vs : VSys) (s : Sys) (e : VEvent)
    (hth : vs.threads = s.threads) (hlk : vs.lock = s.lock)
    (hn : e.readsNewest vs = true) :
    (vstep w vs e).threads = (step w s e.toEvent).threads ∧
    (vstep w vs e).lock = (step w s e.toEvent).lock := by
  obtain ⟨tid, act, pick⟩ := e
  have hseq : s.lock.seq = newestValue 0 vs.seq := by rw [← hlk]; rfl
  have hval : s.lock.val = vs.val.map (newestValue 0) := by rw [← hlk]; rfl
  have hst : s.lock.stores = vs.stores := by rw [← hlk]; rfl
  have hlen : s.lock.val.length = vs.val.length := by rw [hval]; simp
  cases hc : vs.threads tid with
  | idle =>
    have hc2 : s.threads tid = Thread.idle := by rw [← hth]; exact hc
    cases act <;> simp only [vstep, step, VEvent.toEvent, hc, hc2, hlen] <;>
      first
        | exact ⟨hth, hlk⟩
        | exact ⟨by simp [VSys.set, Sys.setThread, hth], hlk⟩
  | rdSeq1 ps np nc =>
    have hc2 : s.threads tid = Thread.rdSeq1 ps np nc := by rw [← hth]; exact hc
    cases act with
    | tick sp =>
      simp only [VEvent.readsNewest, hc] at hn
      obtain ⟨tv2, hl⟩ := atomic_load_newest 0 MemoryOrder.acquire Loc.seq vs.seq pick
        (vs.views tid) hn
      simp only [vstep, step, VEvent.toEvent, hc, hc2, hl, hseq, hst]
      split <;> exact ⟨by simp [VSys.set, Sys.setThread, hth], hlk⟩
    | _ => simp only [vstep, step, VEvent.toEvent, hc, hc2]; exact ⟨hth, hlk⟩
  | rdBody ps np nc seq1 todo buf c1 =>
    have hc2 : s.threads tid = Thread.rdBody ps np nc seq1 todo buf c1 := by rw [← hth]; exact hc
    cases act with
    | tick sp =>
      cases todo with
      | nil =>
        simp only [VEvent.readsNewest, hc] at hn
        obtain ⟨tv2, hl⟩ := atomic_load_newest 0 MemoryOrder.relaxed Loc.seq vs.seq pick
          (atomic_thread_fence_acquire (vs.views tid)) hn
        simp only [vstep, step, VEvent.toEvent, hc, hc2, hl, hseq, hst]
        split <;> exact ⟨by simp [VSys.set, Sys.setThread, hth], hlk⟩
      | cons p todo =>
        simp only [VEvent.readsNewest, hc] at hn
        obtain ⟨tv2, hl⟩ := atomic_load_newest 0 MemoryOrder.relaxed (Loc.byte p)
          (vs.val.getD p []) pick (vs.views tid) hn
        simp only [vstep, step, VEvent.toEvent, hc, hc2, hl, hval, getD_map_newestValue]
        exact ⟨by simp [VSys.set, Sys.setThread, hth], hlk⟩
    | _ => cases todo <;> simp only [vstep, step, VEvent.toEvent, hc, hc2] <;> exact ⟨hth, hlk⟩
  | rdDone ps np nc res span =>
    have hc2 : s.threads tid = Thread.rdDone ps np nc res span := by rw [← hth]; exact hc
    cases act <;> simp only [vstep, step, VEvent.toEvent, hc, hc2] <;>
      first
        | exact ⟨hth, hlk⟩
        | exact ⟨by simp [VSys.set, Sys.setThread, hth], hlk⟩
  | wrLoad =>
    have hc2 : s.threads tid = Thread.wrLoad := by rw [← hth]; exact hc
    cases act with
    | tick sp =>
      simp only [VEvent.readsNewest, hc] at hn
      obtain ⟨tv2, hl⟩ := atomic_load_newest 0 MemoryOrder.relaxed Loc.seq vs.seq pick
        (vs.views tid) hn
      simp only [vstep, step, VEvent.toEvent, hc, hc2, hl, hseq]
      exact ⟨by simp [VSys.set, Sys.setThread, hth], hlk⟩
    | _ => simp only [vstep, step, VEvent.toEvent, hc, hc2]; exact ⟨hth, hlk⟩
  | wrCas seq1 =>
    have hc2 : s.threads tid = Thread.wrCas seq1 := by rw [← hth]; exact hc
    cases act with
    | tick sp =>
      simp only [VEvent.readsNewest, hc] at hn
      obtain ⟨tv2, hl⟩ := atomic_load_newest 0 MemoryOrder.relaxed Loc.seq vs.seq pick
        (vs.views tid) hn
      simp only [readableNewest, Bool.and_eq_true, decide_eq_true_eq] at hn
      have hlt : pick < vs.seq.length := by omega
      by_cases hodd : seq1 % 2 = 1
      · simp only [vstep, step, VEvent.toEvent, hc, hc2, hl, hseq, hodd, if_true]
        exact ⟨by simp [VSys.set, Sys.setThread, hth], hlk⟩
      · by_cases hcas : newestValue 0 vs.seq = seq1 ∧ sp = false
        · have hx : compare_exchange_weak (newestValue 0 vs.seq) seq1 (wrap w (seq1 + 1)) sp
              = (true, wrap w (seq1 + 1), seq1) := by
            simp [compare_exchange_weak, hcas]
          simp only [vstep, step, VEvent.toEvent, hc, hc2, hseq, hodd, if_false,
            atomic_compare_exchange_weak, List.getElem?_eq_getElem hlt, hl, hx, hn.1, if_true]
          refine ⟨by simp [VSys.set, Sys.setThread, hth], ?_⟩
          show ({ val := vs.val.map (newestValue 0), seq := newestValue 0 (vs.seq ++ [_]),
                  stores := vs.stores } : SeqLock) = _
          rw [newestValue_append, ← hval, ← hst]
          rfl
        · have hx : compare_exchange_weak (newestValue 0 vs.seq) seq1 (wrap w (seq1 + 1)) sp
              = (false, newestValue 0 vs.seq, newestValue 0 vs.seq) := by
            simp [compare_exchange_weak, hcas]
          simp only [vstep, step, VEvent.toEvent, hc, hc2, hseq, hodd, if_false,
            atomic_compare_exchange_weak, List.getElem?_eq_getElem hlt, hl, hx]
          exact ⟨by simp [VSys.set, Sys.setThread, hth], hlk⟩
    | _ => simp only [vstep, step, VEvent.toEvent, hc, hc2]; exact ⟨hth, hlk⟩
  | wrHold seq1 todo =>
    have hc2 : s.threads tid = Thread.wrHold seq1 todo := by rw [← hth]; exact hc
    cases todo with
    | nil =>
      cases act with
      | release =>
        simp only [vstep, step, VEvent.toEvent, hc, hc2]
        refine ⟨by simp [VSys.set, Sys.setThread, hth], ?_⟩
        show ({ val := vs.val.map (newestValue 0), seq := newestValue 0 (vs.seq ++ [_]),
                stores := vs.stores + 1 } : SeqLock) = _
        rw [newestValue_append, ← hval, ← hst]
        rfl
      | _ =>
        simp only [vstep, step, VEvent.toEvent, hc, hc2, hlen]
        first
          | exact ⟨hth, hlk⟩
          | exact ⟨by simp [VSys.set, Sys.setThread, hth], hlk⟩
    | cons pb todo =>
      obtain ⟨p, b⟩ := pb
      cases act with
      | tick sp =>
        simp only [vstep, step, VEvent.toEvent, hc, hc2]
        refine ⟨by simp [VSys.set, Sys.setThread, hth], ?_⟩
        show ({ val := (vs.val.set p (vs.val.getD p [] ++ [_])).map (newestValue 0),
                seq := newestValue 0 vs.seq, stores := vs.stores } : SeqLock) = _
        rw [List.map_set, newestValue_append, ← hval, ← hst, ← hseq]
        rfl
      | _ => simp only [vstep, step, VEvent.toEvent, hc, hc2]; exact ⟨hth, hlk⟩
  | wrRead seq1 todo buf =>
    have hc2 : s.threads tid = Thread.wrRead seq1 todo buf := by rw [← hth]; exact hc
    cases act with
    | tick sp =>
      cases todo with
      | nil => simp only [vstep, step, VEvent.toEvent, hc, hc2]; exact ⟨hth, hlk⟩
      | cons p todo =>
        simp only [VEvent.readsNewest, hc] at hn
        obtain ⟨tv2, hl⟩ := atomic_load_newest 0 MemoryOrder.relaxed (Loc.byte p)
          (vs.val.getD p []) pick (vs.views tid) hn
        simp only [vstep, step, VEvent.toEvent, hc, hc2, hl, hval, getD_map_newestValue]
        exact ⟨by simp [VSys.set, Sys.setThread, hth], hlk⟩
    | ret =>
      cases todo <;> simp only [vstep, step, VEvent.toEvent, hc, hc2] <;>
        first
          | exact ⟨hth, hlk⟩
          | exact ⟨by simp [VSys.set, Sys.setThread, hth], hlk⟩
    | _ => cases todo <;> simp only [vstep, step, VEvent.toEvent, hc, hc2] <;> exact ⟨hth, hlk⟩

/-- A schedule of the view machine in which every load reads the newest store
makes the moves of the sequentially consistent machine: the threads stand
where they stand there, and the newest stores are the lock of that machine. -/
theorem vrun_newest (w : Nat) (es : List VEvent) (vs : VSys) (s : Sys)
    (hth : vs.threads = s.threads) (hlk : vs.lock = s.lock)
    (hn : allNewest w vs es = true) :
    (vrun w vs es).threads = (run w s (es.map VEvent.toEvent)).threads ∧
    (vrun w vs es).lock = (run w s (es.map VEvent.toEvent)).lock := by
  induction es generalizing vs s with
  | nil => exact ⟨hth, hlk⟩
  | cons e es ih =>
    simp only [allNewest, Bool.and_eq_true] at hn
    obtain ⟨h1, h2⟩ := vstep_newest w vs s e hth hlk hn.1
    exact ih (vstep w vs e) (step w s e.toEvent) h1 h2 hn.2

theorem vrun_newest_init (w : Nat) (v0 : Bytes) (es : List VEvent)
    (hn : allNewest w (VSys.init v0) es = true) :
    (vrun w (VSys.init v0) es).threads = (run w (Sys.init v0) (es.map VEvent.toEvent)).threads ∧
    (vrun w (VSys.init v0) es).lock = (run w (Sys.init v0) (es.map VEvent.toEvent)).lock := by
  refine vrun_newest w es _ _ rfl ?_ hn
  simp [VSys.lock, VSys.init, Sys.init, SeqLock.construct, newestValue, Function.comp_def]

/-- A `write({3, 4})` of thread 0 followed by a `load()` of thread 1, every
load reading the newest store: the schedule is one of those `vrun_newest`
speaks of, and the load returns `{3, 4}`. -/
theorem allNewest_write_then_load :
    allNewest 32 (VSys.init [7, 9])
      [⟨0, Action.get_writer, 0⟩, ⟨0, Action.tick false, 0⟩, ⟨0, Action.tick false, 0⟩,
       ⟨0, Action.write [3, 4], 0⟩, ⟨0, Action.tick false, 0⟩, ⟨0, Action.tick false, 0⟩,
       ⟨0, Action.release, 0⟩,
       ⟨1, Action.load, 0⟩, ⟨1, Action.tick false, 2⟩, ⟨1, Action.tick false, 1⟩,
       ⟨1, Action.tick false, 1⟩, ⟨1, Action.tick false, 2⟩] = true ∧
    (vrun 32 (VSys.init [7, 9])
      [⟨0, Action.get_writer, 0⟩, ⟨0, Action.tick false, 0⟩, ⟨0, Action.tick false, 0⟩,
       ⟨0, Action.write [3, 4], 0⟩, ⟨0, Action.tick false, 0⟩, ⟨0, Action.tick false, 0⟩,
       ⟨0, Action.release, 0⟩,
       ⟨1, Action.load, 0⟩, ⟨1, Action.tick false, 2⟩, ⟨1, Action.tick false, 1⟩,
       ⟨1, Action.tick false, 1⟩, ⟨1, Action.tick false, 2⟩]).threads 1
      = Thread.rdDone [0, 1] 1 0 [3, 4] 0 := by
  refine ⟨by decide, by decide⟩


/-! ### The newest store is always readable -/

theorem knows_join {s : VSys} {a b : View} (ha : s.Knows a) (hb : s.Knows b) :
    s.Knows (a.join b) := by
  intro x
  simp only [View.join]
  exact max_le (ha x) (hb x)

theorem knows_bump {s : VSys} {a : View} (ha : s.Knows a) (x : Loc) (ts : Nat)
    (hts : ts ≤ s.len x - 1) : s.Knows (a.bump x ts) := by
  intro y
  simp only [View.bump]
  split
  · rename_i h
    subst h
    exact max_le (ha y) hts
  · exact ha y

theorem knows_mono {s s2 : VSys} (h : ∀ x, s.len x ≤ s2.len x) {v : View} (hv : s.Knows v) :
    s2.Knows v := by
  intro x
  have h1 := hv x
  have h2 := h x
  omega

theorem knows_zero (s : VSys) : s.Knows (fun _ => 0) := by
  intro x
  exact Nat.zero_le _

/-- What a load leaves its thread bound to see names only stores that exist. -/
theorem knows_load {α : Type} {s : VSys} {order : MemoryOrder} {x : Loc} {hist : List (Msg α)}
    {ts : Nat} {tv tv2 : TView} {v : α}
    (hl : atomic_load order x hist ts tv = some (v, tv2))
    (hlen : s.len x = hist.length) (hmsg : ∀ m ∈ hist, s.Knows m.view)
    (hc : s.Knows tv.cur) (ha : s.Knows tv.acq) :
    s.Knows tv2.cur ∧ s.Knows tv2.acq := by
  unfold atomic_load at hl
  cases hm : hist[ts]? with
  | none => rw [hm] at hl; simp at hl
  | some m =>
    rw [hm] at hl
    simp only at hl
    have hlt : ts < hist.length := by
      by_contra hc2
      rw [List.getElem?_eq_none (by omega)] at hm
      simp at hm
    have hmem : m ∈ hist := List.getElem?_mem hm
    have hts : ts ≤ s.len x - 1 := by omega
    split at hl
    · simp only [Option.some.injEq, Prod.mk.injEq] at hl
      obtain ⟨_, h2⟩ := hl
      subst h2
      have hseen : s.Knows (m.view.bump x ts) := knows_bump (hmsg m hmem) x ts hts
      refine ⟨?_, knows_join ha hseen⟩
      dsimp only
      split
      · exact knows_join hc hseen
      · exact knows_bump hc x ts hts
    · simp at hl

theorem vinv_init (v0 : Bytes) : VInv (VSys.init v0) := by
  refine ⟨?_, ?_, ?_, ?_, ?_, ?_⟩
  · simp [VSys.init]
  · intro h hh
    simp only [VSys.init, List.mem_map] at hh
    obtain ⟨b, _, hb⟩ := hh
    rw [← hb]
    simp
  · intro t; exact knows_zero _
  · intro t; exact knows_zero _
  · intro m hm
    simp only [VSys.init, List.mem_singleton] at hm
    rw [hm]
    exact knows_zero _
  · intro h hh m hm
    simp only [VSys.init, List.mem_map] at hh
    obtain ⟨b, _, hb⟩ := hh
    rw [← hb] at hm
    simp only [List.mem_singleton] at hm
    rw [hm]
    exact knows_zero _

theorem vinv_set {s : VSys} (h : VInv s) (t : Nat) (th : Thread) (tv : TView)
    (hc : s.Knows tv.cur) (ha : s.Knows tv.acq) : VInv (s.set t th tv) := by
  refine ⟨h.seq_ne, h.val_ne, ?_, ?_, h.seq_msg, h.val_msg⟩
  · intro u
    show VSys.Knows s (if u = t then tv else s.views u).cur
    split
    · exact hc
    · exact h.cur u
  · intro u
    show VSys.Knows s (if u = t then tv else s.views u).acq
    split
    · exact ha
    · exact h.acq u

theorem getD_mem_or_nil {α : Type} (val : List (List α)) (p : Nat) :
    val.getD p [] ∈ val ∨ val.getD p [] = [] := by
  by_cases hp : p < val.length
  · left
    simp [List.getD_eq_getElem?_getD, List.getElem?_eq_getElem hp]
  · right
    simp [List.getD_eq_getElem?_getD, List.getElem?_eq_none (Nat.le_of_not_lt hp)]

theorem len_getD_set {α : Type} (val : List (List α)) (p q : Nat) (a : α) :
    (val.getD q []).length ≤ ((val.set p (val.getD p [] ++ [a])).getD q []).length := by
  simp only [List.getD_eq_getElem?_getD, List.getElem?_set]
  by_cases hpq : p = q
  · subst hpq
    by_cases hp : p < val.length
    · simp [hp]
    · simp [hp, List.getElem?_eq_none (Nat.le_of_not_lt hp)]
  · simp [hpq]

theorem len_getD_set_self {α : Type} (val : List (List α)) (p : Nat) (a : α)
    (hp : p < val.length) :
    ((val.set p (val.getD p [] ++ [a])).getD p []).length = (val.getD p []).length + 1 := by
  simp [List.getD_eq_getElem?_getD, List.getElem?_set, hp]

/-- The invariant after a store to the counter. -/
theorem vinv_seq_store {s : VSys} (h : VInv s) (m : Msg Nat) (st : Nat)
    (hm : ∀ x, m.view x ≤ (if x = Loc.seq then s.seq.length else s.len x - 1)) :
    VInv { s with seq := s.seq ++ [m], stores := st } ∧
    ∀ v : View, (∀ x, v x ≤ (if x = Loc.seq then s.seq.length else s.len x - 1)) →
      VSys.Knows { s with seq := s.seq ++ [m], stores := st } v := by
  have hk : ∀ v : View, (∀ x, v x ≤ (if x = Loc.seq then s.seq.length else s.len x - 1)) →
      VSys.Knows { s with seq := s.seq ++ [m], stores := st } v := by
    intro v hv x
    have := hv x
    cases x with
    | seq => simpa [VSys.len] using this
    | byte p => simpa [VSys.len] using this
  have hmono : ∀ v : View, s.Knows v →
      VSys.Knows { s with seq := s.seq ++ [m], stores := st } v := by
    intro v hv
    apply hk
    intro x
    have := hv x
    split
    · rename_i hx
      subst hx
      simp only [VSys.len] at this
      omega
    · exact this
  refine ⟨⟨by simp, h.val_ne, fun t => hmono _ (h.cur t), fun t => hmono _ (h.acq t), ?_,
    fun hh hhm mm hmm => hmono _ (h.val_msg hh hhm mm hmm)⟩, hk⟩
  intro mm hmm
  simp only [List.mem_append, List.mem_singleton] at hmm
  rcases hmm with hmm | hmm
  · exact hmono _ (h.seq_msg mm hmm)
  · rw [hmm]; exact hk _ hm

/-- The invariant after a store to byte `p`. -/
theorem vinv_byte_store {s : VSys} (h : VInv s) (p : Nat) (m : Msg Byte)
    (hm : ∀ x, m.view x ≤ (if x = Loc.byte p then (s.val.getD p []).length else s.len x - 1)) :
    VInv { s with val := s.val.set p (s.val.getD p [] ++ [m]) } ∧
    ∀ v : View,
      (∀ x, v x ≤ (if x = Loc.byte p then (s.val.getD p []).length else s.len x - 1)) →
      VSys.Knows { s with val := s.val.set p (s.val.getD p [] ++ [m]) } v := by
  by_cases hp : p < s.val.length
  · have hk : ∀ v : View,
        (∀ x, v x ≤ (if x = Loc.byte p then (s.val.getD p []).length else s.len x - 1)) →
        VSys.Knows { s with val := s.val.set p (s.val.getD p [] ++ [m]) } v := by
      intro v hv x
      have := hv x
      cases x with
      | seq => simpa [VSys.len] using this
      | byte q =>
        by_cases hq : q = p
        · subst hq
          simp only [if_true] at this
          show v (Loc.byte q) ≤ ((s.val.set q (s.val.getD q [] ++ [m])).getD q []).length - 1
          rw [len_getD_set_self _ _ _ hp]
          omega
        · have hne : Loc.byte q ≠ Loc.byte p := by
            intro hc
            injection hc with hc
            exact hq hc
          simp only [hne, if_false] at this
          have hle := len_getD_set s.val p q m
          show v (Loc.byte q) ≤ ((s.val.set p (s.val.getD p [] ++ [m])).getD q []).length - 1
          simp only [VSys.len] at this
          omega
    have hmono : ∀ v : View, s.Knows v →
        VSys.Knows { s with val := s.val.set p (s.val.getD p [] ++ [m]) } v := by
      intro v hv
      apply hk
      intro x
      have := hv x
      split
      · rename_i hx
        subst hx
        simp only [VSys.len] at this
        omega
      · exact this
    refine ⟨⟨h.seq_ne, ?_, fun t => hmono _ (h.cur t), fun t => hmono _ (h.acq t),
      fun mm hmm => hmono _ (h.seq_msg mm hmm), ?_⟩, hk⟩
    · intro hh hhm
      rcases List.mem_or_eq_of_mem_set hhm with h1 | h1
      · exact h.val_ne hh h1
      · rw [h1]; simp
    · intro hh hhm mm hmm
      rcases List.mem_or_eq_of_mem_set hhm with h1 | h1
      · exact hmono _ (h.val_msg hh h1 mm hmm)
      · rw [h1] at hmm
        simp only [List.mem_append, List.mem_singleton] at hmm
        rcases hmm with h2 | h2
        · rcases getD_mem_or_nil s.val p with h3 | h3
          · exact hmono _ (h.val_msg _ h3 mm h2)
          · rw [h3] at h2; simp at h2
        · rw [h2]; exact hk _ hm
  · have hset : s.val.set p (s.val.getD p [] ++ [m]) = s.val :=
      List.set_eq_of_length_le (Nat.le_of_not_lt hp)
    have hnil : s.val.getD p [] = [] := by
      simp [List.getD_eq_getElem?_getD, List.getElem?_eq_none (Nat.le_of_not_lt hp)]
    rw [hset]
    refine ⟨h, ?_⟩
    intro v hv x
    have := hv x
    split at this
    · rename_i hx
      subst hx
      rw [hnil] at this
      simp only [List.length_nil] at this
      omega
    · exact this

theorem atomic_store_relaxed {α : Type} (x : Loc) (hist : List (Msg α)) (v : α) (tv : TView) :
    atomic_store MemoryOrder.relaxed x hist v tv =
      (hist ++ [{ value := v, view := View.bump (fun _ => 0) x hist.length }],
       { cur := tv.cur.bump x hist.length, acq := tv.acq.bump x hist.length }) := rfl

theorem atomic_store_release {α : Type} (x : Loc) (hist : List (Msg α)) (v : α) (tv : TView) :
    atomic_store MemoryOrder.release x hist v tv =
      (hist ++ [{ value := v, view := tv.cur.bump x hist.length }],
       { cur := tv.cur.bump x hist.length, acq := tv.acq.bump x hist.length }) := rfl

theorem fits_of_knows {s : VSys} {v : View} (x0 : Loc) (hv : s.Knows v) :
    ∀ x, v x ≤ (if x = x0 then s.len x0 else s.len x - 1) := by
  intro x
  have := hv x
  split
  · rename_i hx
    subst hx
    omega
  · exact this

theorem fits_bump {s : VSys} {v : View} (x0 : Loc) (L : Nat)
    (hv : ∀ x, v x ≤ (if x = x0 then L else s.len x - 1)) :
    ∀ x, (v.bump x0 L) x ≤ (if x = x0 then L else s.len x - 1) := by
  intro x
  have := hv x
  simp only [View.bump]
  by_cases hx : x = x0
  · simp only [hx, if_true] at this ⊢
    exact max_le this (Nat.le_refl _)
  · simp only [hx, if_false] at this ⊢
    exact this

theorem fits_join {s : VSys} {a b : View} (x0 : Loc) (L : Nat)
    (ha : ∀ x, a x ≤ (if x = x0 then L else s.len x - 1))
    (hb : ∀ x, b x ≤ (if x = x0 then L else s.len x - 1)) :
    ∀ x, (a.join b) x ≤ (if x = x0 then L else s.len x - 1) := by
  intro x
  simp only [View.join]
  exact max_le (ha x) (hb x)

theorem knows_byte_msgs {s : VSys} (h : VInv s) (p : Nat) :
    ∀ m ∈ s.val.getD p [], s.Knows m.view := by
  intro m hm
  rcases getD_mem_or_nil s.val p with h3 | h3
  · exact h.val_msg _ h3 m hm
  · rw [h3] at hm; simp at hm

/-- Every step of the view machine keeps the invariant. -/
theorem vstep_vinv (w : Nat) (s : VSys) (e : VEvent) (h : VInv s) : VInv (vstep w s e) := by
  obtain ⟨tid, act, pick⟩ := e
  have hcur := h.cur tid
  have hacq := h.acq tid
  cases hc : s.threads tid with
  | idle =>
    cases act <;> simp only [vstep, hc] <;>
      first
        | exact h
        | exact vinv_set h _ _ _ hcur hacq
  | rdSeq1 ps np nc =>
    cases act with
    | tick sp =>
      cases hl : atomic_load MemoryOrder.acquire Loc.seq s.seq pick (s.views tid) with
      | none => simp only [vstep, hc, hl]; exact h
      | some r =>
        obtain ⟨v, tv2⟩ := r
        obtain ⟨k1, k2⟩ := knows_load hl rfl h.seq_msg hcur hacq
        simp only [vstep, hc, hl]
        split <;> exact vinv_set h _ _ _ k1 k2
    | _ => simp only [vstep, hc]; exact h
  | rdBody ps np nc seq1 todo buf c1 =>
    cases act with
    | tick sp =>
      cases todo with
      | nil =>
        cases hl : atomic_load MemoryOrder.relaxed Loc.seq s.seq pick
            (atomic_thread_fence_acquire (s.views tid)) with
        | none => simp only [vstep, hc, hl]; exact h
        | some r =>
          obtain ⟨v, tv2⟩ := r
          obtain ⟨k1, k2⟩ := knows_load (s := s) hl rfl h.seq_msg hacq hacq
          simp only [vstep, hc, hl]
          split <;> exact vinv_set h _ _ _ k1 k2
      | cons p todo =>
        cases hl : atomic_load MemoryOrder.relaxed (Loc.byte p) (s.val.getD p []) pick
            (s.views tid) with
        | none => simp only [vstep, hc, hl]; exact h
        | some r =>
          obtain ⟨v, tv2⟩ := r
          obtain ⟨k1, k2⟩ := knows_load (s := s) hl rfl (knows_byte_msgs h p) hcur hacq
          simp only [vstep, hc, hl]
          exact vinv_set h _ _ _ k1 k2
    | _ => cases todo <;> simp only [vstep, hc] <;> exact h
  | rdDone ps np nc res span =>
    cases act <;> simp only [vstep, hc] <;>
      first
        | exact h
        | exact vinv_set h _ _ _ hcur hacq
  | wrLoad =>
    cases act with
    | tick sp =>
      cases hl : atomic_load MemoryOrder.relaxed Loc.seq s.seq pick (s.views tid) with
      | none => simp only [vstep, hc, hl]; exact h
      | some r =>
        obtain ⟨v, tv2⟩ := r
        obtain ⟨k1, k2⟩ := knows_load hl rfl h.seq_msg hcur hacq
        simp only [vstep, hc, hl]
        exact vinv_set h _ _ _ k1 k2
    | _ => simp only [vstep, hc]; exact h
  | wrCas seq1 =>
    cases act with
    | tick sp =>
      by_cases hodd : seq1 % 2 = 1
      · cases hl : atomic_load MemoryOrder.relaxed Loc.seq s.seq pick (s.views tid) with
        | none => simp only [vstep, hc, hl, hodd, if_true]; exact h
        | some r =>
          obtain ⟨v, tv2⟩ := r
          obtain ⟨k1, k2⟩ := knows_load hl rfl h.seq_msg hcur hacq
          simp only [vstep, hc, hl, hodd, if_true]
          exact vinv_set h _ _ _ k1 k2
      · simp only [vstep, hc, hodd, if_false]
        unfold atomic_compare_exchange_weak
        cases hm : s.seq[pick]? with
        | none => exact h
        | some m =>
          have hmk : s.Knows m.view := h.seq_msg m (List.getElem?_mem hm)
          cases hl : atomic_load MemoryOrder.relaxed Loc.seq s.seq pick (s.views tid) with
          | none => exact h
          | some r =>
            obtain ⟨v, tv2⟩ := r
            obtain ⟨k1, k2⟩ := knows_load hl rfl h.seq_msg hcur hacq
            dsimp only
            cases hx : compare_exchange_weak v seq1 (wrap w (seq1 + 1)) sp with
            | mk ok rest =>
              obtain ⟨stored, exp⟩ := rest
              cases ok with
              | false => exact vinv_set h _ _ _ k1 k2
              | true =>
                by_cases hts : pick + 1 = s.seq.length
                · simp only [hts, if_true]
                  obtain ⟨hv, hk⟩ := vinv_seq_store h
                    { value := stored
                      view := (tv2.cur.bump Loc.seq s.seq.length).join m.view } s.stores
                    (fits_join Loc.seq _
                      (fits_bump Loc.seq _ (fits_of_knows Loc.seq k1))
                      (fits_of_knows Loc.seq hmk))
                  exact vinv_set hv _ _ _
                    (hk _ (fits_bump Loc.seq _ (fits_of_knows Loc.seq k1)))
                    (hk _ (fits_bump Loc.seq _ (fits_of_knows Loc.seq k2)))
                · simp only [hts, if_false]
                  exact h
    | _ => simp only [vstep, hc]; exact h
  | wrHold seq1 todo =>
    cases todo with
    | nil =>
      cases act with
      | release =>
        simp only [vstep, hc, atomic_store_release]
        obtain ⟨hv, hk⟩ := vinv_seq_store h
          { value := wrap w (seq1 + 2), view := (s.views tid).cur.bump Loc.seq s.seq.length }
          (s.stores + 1) (fits_bump Loc.seq _ (fits_of_knows Loc.seq hcur))
        exact vinv_set hv _ _ _
          (hk _ (fits_bump Loc.seq _ (fits_of_knows Loc.seq hcur)))
          (hk _ (fits_bump Loc.seq _ (fits_of_knows Loc.seq hacq)))
      | _ =>
        simp only [vstep, hc]
        first
          | exact h
          | exact vinv_set h _ _ _ hcur hacq
    | cons pb todo =>
      obtain ⟨p, b⟩ := pb
      cases act with
      | tick sp =>
        simp only [vstep, hc, atomic_store_relaxed]
        obtain ⟨hv, hk⟩ := vinv_byte_store h p
          { value := b, view := View.bump (fun _ => 0) (Loc.byte p) (s.val.getD p []).length }
          (fits_bump (Loc.byte p) _ (fits_of_knows (Loc.byte p) (knows_zero s)))
        exact vinv_set hv _ _ _
          (hk _ (fits_bump (Loc.byte p) _ (fits_of_knows (Loc.byte p) hcur)))
          (hk _ (fits_bump (Loc.byte p) _ (fits_of_knows (Loc.byte p) hacq)))
      | _ => simp only [vstep, hc]; exact h
  | wrRead seq1 todo buf =>
    cases act with
    | tick sp =>
      cases todo with
      | nil => simp only [vstep, hc]; exact h
      | cons p todo =>
        cases hl : atomic_load MemoryOrder.relaxed (Loc.byte p) (s.val.getD p []) pick
            (s.views tid) with
        | none => simp only [vstep, hc, hl]; exact h
        | some r =>
          obtain ⟨v, tv2⟩ := r
          obtain ⟨k1, k2⟩ := knows_load (s := s) hl rfl (knows_byte_msgs h p) hcur hacq
          simp only [vstep, hc, hl]
          exact vinv_set h _ _ _ k1 k2
    | ret =>
      cases todo <;> simp only [vstep, hc] <;>
        first
          | exact h
          | exact vinv_set h _ _ _ hcur hacq
    | _ => cases todo <;> simp only [vstep, hc] <;> exact h

theorem vrun_vinv (w : Nat) (s : VSys) (es : List VEvent) (h : VInv s) :
    VInv (vrun w s es) := by
  induction es generalizing s with
  | nil => exact h
  | cons e es ih => exact ih _ (vstep_vinv w s e h)

/-- In every state of the view machine reached from construction every thread
may read the newest store of the counter (before and after an acquire fence)
and of every byte of `val`: the moves of the sequentially consistent machine
are always among the moves of the view machine. -/
theorem newest_readable (w : Nat) (v0 : Bytes) (es : List VEvent) (t : Nat) :
    readableNewest (vrun w (VSys.init v0) es).seq ((vrun w (VSys.init v0) es).seq.length - 1)
      (((vrun w (VSys.init v0) es).views t).cur Loc.seq) = true ∧
    readableNewest (vrun w (VSys.init v0) es).seq ((vrun w (VSys.init v0) es).seq.length - 1)
      (((vrun w (VSys.init v0) es).views t).acq Loc.seq) = true ∧
    ∀ p, p < (vrun w (VSys.init v0) es).val.length →
      readableNewest ((vrun w (VSys.init v0) es).val.getD p [])
        (((vrun w (VSys.init v0) es).val.getD p []).length - 1)
        (((vrun w (VSys.init v0) es).views t).cur (Loc.byte p)) = true := by
  have h := vrun_vinv w (VSys.init v0) es (vinv_init v0)
  generalize vrun w (VSys.init v0) es = s at h
  have hpos : 0 < s.seq.length := List.length_pos.mpr h.seq_ne
  have h1 := h.cur t Loc.seq
  have h2 := h.acq t Loc.seq
  simp only [VSys.len] at h1 h2
  refine ⟨?_, ?_, ?_⟩
  · simp only [readableNewest, Bool.and_eq_true, decide_eq_true_eq]
    omega
  · simp only [readableNewest, Bool.and_eq_true, decide_eq_true_eq]
    omega
  · intro p hp
    have hmem : s.val.getD p [] ∈ s.val := by
      simp [List.getD_eq_getElem?_getD, List.getElem?_eq_getElem hp]
    have hpos2 : 0 < (s.val.getD p []).length := List.length_pos.mpr (h.val_ne _ hmem)
    have h3 := h.cur t (Loc.byte p)
    simp only [VSys.len] at h3
    simp only [readableNewest, Bool.and_eq_true, decide_eq_true_eq]
    omega


/-- Where the hybrid comes from.  In every execution of the view machine in
which every load reads the newest store, a reader call that has returned with
fewer than `2 ^ (w - 1)` commits between the two counter loads of its accepted
pass returned the bytes of one single committed value: a hybrid needs a load
of an older store, or a counter that has wrapped. -/
theorem one_generation_of_newest (w : Nat) (hw : 0 < w) (v0 : Bytes) (es : List VEvent)
    (t : Nat) (ps : List Nat) (np nc : Nat) (res : Bytes) (span : Nat)
    (hn : allNewest w (VSys.init v0) es = true)
    (hdone : (vrun w (VSys.init v0) es).threads t = Thread.rdDone ps np nc res span)
    (hspan : span < 2 ^ (w - 1)) :
    ∃ v ∈ (run w (Sys.init v0) (es.map VEvent.toEvent)).hist,
      res = ps.map (fun p => v.getD p 0) := by
  have hth := (vrun_newest_init w v0 es hn).1
  rw [hth] at hdone
  obtain ⟨v, hv, he, _⟩ := load_returns_one_generation w hw v0 (es.map VEvent.toEvent) t ps np nc
    res span hdone hspan
  exact ⟨v, hv, he⟩


/-! ### Snapshot integrity under the memory orders of the source (C1) -/

/-- C1 fails on the code: `load()` returns a byte-level hybrid although no
commit falls inside its pass.  A lock with a two-byte value is constructed as
`{0, 0}` (counter of 8, 16, 32 or 64 bits; the counter never leaves 0 and 1;
the states below are those of the 32-bit counter).  Thread 1
calls `load()` and loads `seq1 = 0` (acquire).  Thread 0 calls
`write({1, 1})`: its compare-and-swap (release on success) stores 1 into the
counter, then it stores byte 0 (relaxed).  Thread 1 loads byte 0 and reads the
new store, loads byte 1 and reads 0, passes its acquire fence and loads `seq2`
(relaxed) from the store of the construction: the relaxed store of byte 0
publishes nothing, and no release fence stands between the compare-and-swap
and the byte stores, so having read the new byte does not bind thread 1 to see
the counter at 1.  It finds `seq1 == seq2 == 0` and returns `{1, 0}` after one
pass, which is neither the constructed value `{0, 0}` nor the value `{1, 1}`
being written; at that point the destructor of the handle has not run.  In the
sequentially consistent machine the same interleaving makes the reader
restart.

The machine does enforce what the memory orders of the source give: once
thread 0 has stored byte 1 and made its release store, a thread whose acquire
load of `seq1` reads that store may not read the old store of either byte nor
an older store of the counter, and returns `{1, 1}`. -/
theorem load_torn_before_commit :
    (∀ w ∈ [8, 16, 32, 64], (vrun w (VSys.init [0, 0]) tornViewSchedule).threads 1
      = Thread.rdDone [0, 1] 1 0 [1, 0] 0) ∧
    ([1, 0] : Bytes) ≠ [0, 0] ∧ ([1, 0] : Bytes) ≠ [1, 1] ∧
    (vrun 32 (VSys.init [0, 0]) tornViewSchedule).seq.map (fun m => m.value) = [0, 1] ∧
    (vrun 32 (VSys.init [0, 0]) tornViewSchedule).val.map (fun h => h.map (fun m => m.value))
      = [[0, 1], [0]] ∧
    (vrun 32 (VSys.init [0, 0]) tornViewSchedule).stores = 0 ∧
    (vrun 32 (VSys.init [0, 0]) tornViewSchedule).threads 0 = Thread.wrHold 0 [(1, 1)] ∧
    (run 32 (Sys.init [0, 0]) (tornViewSchedule.map VEvent.toEvent)).threads 1
      = Thread.rdSeq1 [0, 1] 1 0 ∧
    (vrun 32 (VSys.init [0, 0]) (tornViewSchedule ++ commitThenLoad)).seq.map (fun m => m.value)
      = [0, 1, 2] ∧
    (vrun 32 (VSys.init [0, 0]) (tornViewSchedule ++ commitThenLoad)).threads 2
      = Thread.rdBody [0, 1] 1 0 2 [0, 1] [] 1 ∧
    (vrun 32 (VSys.init [0, 0])
      (tornViewSchedule ++ commitThenLoad ++ [⟨2, Action.tick false, 0⟩])).threads 2
      = Thread.rdBody [0, 1] 1 0 2 [0, 1] [] 1 ∧
    (vrun 32 (VSys.init [0, 0])
      (tornViewSchedule ++ commitThenLoad ++
        [⟨2, Action.tick false, 1⟩, ⟨2, Action.tick false, 0⟩])).threads 2
      = Thread.rdBody [0, 1] 1 0 2 [1] [1] 1 ∧
    (vrun 32 (VSys.init [0, 0])
      (tornViewSchedule ++ commitThenLoad ++
        [⟨2, Action.tick false, 1⟩, ⟨2, Action.tick false, 1⟩,
         ⟨2, Action.tick false, 1⟩])).threads 2
      = Thread.rdBody [0, 1] 1 0 2 [] [1, 1] 1 ∧
    (vrun 32 (VSys.init [0, 0])
      (tornViewSchedule ++ commitThenLoad ++
        [⟨2, Action.tick false, 1⟩, ⟨2, Action.tick false, 1⟩,
         ⟨2, Action.tick false, 2⟩])).threads 2
      = Thread.rdDone [0, 1] 1 0 [1, 1] 0 := by
  refine ⟨by decide, by decide, by decide, by decide, by decide, by decide, by decide,
    by decide, by decide, by decide, by decide, by decide, by decide, by decide⟩

end seqlock
